import Mathlib

/-!
Verification development for the code-cartographer model-construction
pipeline and graph query engine.

The Python source is shallowly embedded:

* The object graph of `CodeUnit` elements (metamodel/elements.py) is an
  arena of element records addressed by index; the weak parent back-link
  is `Option Nat`, and `fqn` is the same parent-chain recursion as the
  source, made total with fuel (the chain of any tree built by
  `add_child` is strictly index-decreasing, so `elems.length` fuel is
  always enough).
* `Metamodel` (metamodel/model.py) carries the arena, the FQN registry
  (an insertion-ordered association list, mirroring a Python dict) and
  the append-only relationship list.
* Fallible operations (`add_child` raising `ValueError`,
  `register_element` raising `KeyError`) return `Option`/`Except`.
-/

namespace CodeCartographer

/-- RelationshipType enum (metamodel/relationship.py). -/
inductive RelType where
  | INHERITANCE
  | COMPOSITION
  | AGGREGATION
  | ASSOCIATION
  | DEPENDENCY
deriving DecidableEq, Repr

/-- Enum .name used by the facade when building edge tuples. -/
def RelType.name : RelType → String
  | .INHERITANCE => "INHERITANCE"
  | .COMPOSITION => "COMPOSITION"
  | .AGGREGATION => "AGGREGATION"
  | .ASSOCIATION => "ASSOCIATION"
  | .DEPENDENCY => "DEPENDENCY"

/-- Relationship dataclass (metamodel/relationship.py): immutable record
of source FQN, target FQN, kind and metadata mapping. -/
structure Relationship where
  source_fqn : String
  target_fqn : String
  rtype : RelType
  metadata : List (String × String) := []
deriving DecidableEq, Repr

/-- The concrete CodeUnit subclasses (metamodel/elements.py):
PackageUnit, ModuleUnit, ClassifierUnit, MemberUnit. -/
inductive EKind where
  | package
  | module
  | classifier
  | member
deriving DecidableEq, Repr

/-- One CodeUnit object: `name`, the weak parent back-link, the
name-keyed children dict (insertion ordered, values are arena indices),
and the ClassifierUnit-only `base_classes` list (empty for the other
kinds, which do not have the attribute in the source). -/
structure ElemData where
  name : String
  parent : Option Nat
  children : List (String × Nat)
  kind : EKind
  base_classes : List String := []
deriving DecidableEq, Repr

/-- The heap of CodeUnit objects; an element is addressed by its index. -/
structure Arena where
  elems : List ElemData
deriving DecidableEq, Repr

namespace Arena

/-- CodeUnit.fqn (elements.py): recursive walk of the parent chain; the
root contributes only its own name.  Fuel makes the recursion total;
`fqn` below supplies `elems.length` fuel, which suffices on every arena
whose parent links decrease (proved for trees built by `add_child`). -/
def fqnAux (a : Arena) : Nat → Nat → String
  | 0, _ => ""
  | fuel + 1, i =>
    match a.elems[i]? with
    | none => ""
    | some e =>
      match e.parent with
      | none => e.name
      | some p => fqnAux a fuel p ++ "." ++ e.name

/-- CodeUnit.fqn with the canonical fuel. -/
def fqn (a : Arena) (i : Nat) : String :=
  fqnAux a a.elems.length i

/-- CodeUnit.add_child (elements.py) in the form the construction layer
uses it: a freshly created child element is attached under parent `p`.
Raises (returns `none`) if `p` already has a child with that local name.
On success the child's parent back-link is set to `p`, the child is
appended to the arena, and it is recorded in `p`'s children dict.
Returns the new arena together with the child's index. -/
def addChild (a : Arena) (p : Nat) (child : ElemData) : Option (Arena × Nat) :=
  match a.elems[p]? with
  | none => none
  | some pe =>
    if pe.children.any (fun c => c.1 = child.name) then
      none
    else
      let newIdx := a.elems.length
      let pe' : ElemData :=
        { pe with children := pe.children ++ [(child.name, newIdx)] }
      let elems' :=
        (a.elems.set p pe') ++ [{ child with parent := some p }]
      some (⟨elems'⟩, newIdx)

/-- An arena consisting of a single root element with the given name and
kind (no parent), as created by `Metamodel.__init__`. -/
def single (name : String) (kind : EKind) : Arena :=
  ⟨[{ name := name, parent := none, children := [], kind := kind }]⟩

/-- Arenas reachable by the construction operations: start from a single
root element, and repeatedly `add_child` a freshly created element (no
parent, no children yet) under an existing one. -/
inductive Built : Arena → Prop where
  | root (name : String) (kind : EKind) : Built (single name kind)
  | step {a a' : Arena} {p i : Nat} (ha : Built a)
      (name : String) (kind : EKind) (bases : List String)
      (h : a.addChild p { name := name, parent := none, children := [],
                          kind := kind, base_classes := bases } = some (a', i)) :
      Built a'

/-- Every parent back-link points to an earlier arena slot.  This holds
for every tree built by the construction operations, because a child is
always freshly appended after its parent. -/
def ParentDecr (a : Arena) : Prop :=
  ∀ (i : Nat) (e : ElemData) (p : Nat),
    a.elems[i]? = some e → e.parent = some p → p < i

end Arena

/-- Direction parameter of Metamodel.get_relationships_for_fqn. -/
inductive Direction where
  | outgoing
  | incoming
  | both
deriving DecidableEq, Repr

/-- Metamodel (metamodel/model.py): root package, FQN registry
(`_fqn_registry`, a dict from FQN string to element, here to its arena
index, insertion ordered) and the append-only relationship registry. -/
structure Metamodel where
  arena : Arena
  rootIdx : Nat
  registry : List (String × Nat)
  rels : List Relationship
deriving DecidableEq, Repr

namespace Metamodel

/-- Metamodel.__init__: creates the root PackageUnit with the project
name and registers it under its own name. -/
def init (project_name : String) : Metamodel :=
  { arena := Arena.single project_name .package
  , rootIdx := 0
  , registry := [(project_name, 0)]
  , rels := [] }

/-- Metamodel.get_element_by_fqn: O(1) dict lookup, `None` if absent. -/
def get_element_by_fqn (m : Metamodel) (f : String) : Option Nat :=
  (m.registry.find? (fun kv => kv.1 = f)).map (fun kv => kv.2)

/-- Metamodel.register_element: inserts the element under its current
computed FQN; raises KeyError (returns `none`) if that FQN is taken. -/
def register_element (m : Metamodel) (i : Nat) : Option Metamodel :=
  let f := m.arena.fqn i
  if m.registry.any (fun kv => kv.1 = f) then none
  else some { m with registry := m.registry ++ [(f, i)] }

/-- Metamodel.register_relationship: append to the relationship list. -/
def register_relationship (m : Metamodel) (r : Relationship) : Metamodel :=
  { m with rels := m.rels ++ [r] }

/-- Metamodel.get_relationships_for_fqn: linear scan of the relationship
registry; a relationship is appended when the outgoing check matches,
or (`elif`) when the incoming check matches. -/
def get_relationships_for_fqn (m : Metamodel) (f : String) (dir : Direction) :
    List Relationship :=
  let is_outgoing := dir = .outgoing ∨ dir = .both
  let is_incoming := dir = .incoming ∨ dir = .both
  m.rels.foldl
    (fun results rel =>
      if is_outgoing ∧ rel.source_fqn = f then results ++ [rel]
      else if is_incoming ∧ rel.target_fqn = f then results ++ [rel]
      else results)
    []

end Metamodel

/-!
Query engine (query_control/facade.py, query.py, view_state.py).

`execute_query` is a breadth-first traversal over the registry: an FIFO
queue of `(fqn, depth)` pairs, a visited set (a Python `set`, embedded
as a `Finset String`), an insertion-ordered node dict and an edge set
(embedded as an insertion-ordered duplicate-free list; the facade holds
it in a Python `set`, whose iteration order is unspecified — every
claim about edges is a set-level statement).  The loop is embedded as a
fuel-indexed iteration of a step function; the canonical fuel is the
termination measure `qMeasure`, proved sufficient below.
-/

/-- Filter rule dict: the facade only reads the optional
`exclude_types` key. -/
structure FilterRule where
  excludeTypes : Option (List RelType)
deriving DecidableEq, Repr

/-- Query dataclass (query_control/query.py).  `depth` is the
non-negative depth bound of the data model. -/
structure Query where
  root_fqns : List String
  depth : Nat
  filter_rules : List FilterRule
deriving DecidableEq, Repr

/-- Whether some filter rule's `exclude_types` entry lists the given
relationship kind. -/
def kindExcluded (q : Query) (k : RelType) : Bool :=
  q.filter_rules.any (fun rule =>
    match rule.excludeTypes with
    | some ks => ks.contains k
    | none => false)

/-- AnalysisFacade._is_relationship_filtered: some rule has an
`exclude_types` entry listing the relationship's kind. -/
def isFiltered (q : Query) (rel : Relationship) : Bool :=
  kindExcluded q rel.rtype

/-- Serialized node record (AnalysisFacade._serialize_element). -/
structure NodeRecord where
  fqn : String
  name : String
  element_type : String
  parent_fqn : Option String
deriving DecidableEq, Repr

/-- The isinstance chain of _serialize_element: ClassifierUnit →
"class", ModuleUnit → "module", PackageUnit → "package", else
"unknown". -/
def elementTypeName : EKind → String
  | .classifier => "class"
  | .module => "module"
  | .package => "package"
  | .member => "unknown"

/-- AnalysisFacade._serialize_element on the element at index `i`:
recomputes the element's fqn and its parent's fqn from the tree. -/
def serializeElement (m : Metamodel) (i : Nat) (e : ElemData) : NodeRecord :=
  { fqn := m.arena.fqn i
  , name := e.name
  , element_type := elementTypeName e.kind
  , parent_fqn := e.parent.map (fun p => m.arena.fqn p) }

/-- An edge tuple `(source_fqn, target_fqn, type.name)` as recorded in
`edges_to_render`. -/
abbrev EdgeTuple := String × String × String

/-- Insertion into the `nodes_to_render` dict: overwrite in place when
the key exists, append otherwise. -/
def dictInsert (l : List (String × NodeRecord)) (k : String) (v : NodeRecord) :
    List (String × NodeRecord) :=
  if l.any (fun kv => kv.1 = k) then
    l.map (fun kv => if kv.1 = k then (k, v) else kv)
  else l ++ [(k, v)]

/-- Insertion into the `edges_to_render` set. -/
def edgeInsert (l : List EdgeTuple) (e : EdgeTuple) : List EdgeTuple :=
  if e ∈ l then l else l ++ [e]

/-- The mutable traversal state of execute_query. -/
structure QState where
  queue : List (String × Nat)
  visited : Finset String
  nodes : List (String × NodeRecord)
  edges : List EdgeTuple
deriving DecidableEq

/-- One iteration of the structural-children loop: enqueue the child at
the current depth (zero cost) if not already visited; mark visited. -/
def structStep (m : Metamodel) (d : Nat) (st : QState) (c : String × Nat) :
    QState :=
  let cf := m.arena.fqn c.2
  if cf ∈ st.visited then st
  else { st with visited := insert cf st.visited
               , queue := st.queue ++ [(cf, d)] }

/-- Structural traversal: the loop over `element.children`. -/
def structuralPush (m : Metamodel) (d : Nat) (children : List (String × Nat))
    (s : QState) : QState :=
  children.foldl (structStep m d) s

/-- The `node_to_visit_next` computation: the relationship endpoint opposite the
current FQN. -/
def otherEnd (f : String) (rel : Relationship) : String :=
  if rel.source_fqn = f then rel.target_fqn else rel.source_fqn

/-- One iteration of the relationships loop: skip the relationship if a
filter rule excludes it; otherwise record its edge tuple and, if the
other endpoint is unvisited, enqueue it at depth d+1 and mark it
visited. -/
def relStep (q : Query) (f : String) (d : Nat) (st : QState)
    (rel : Relationship) : QState :=
  if isFiltered q rel then st
  else
    let tup : EdgeTuple := (rel.source_fqn, rel.target_fqn, rel.rtype.name)
    let st := { st with edges := edgeInsert st.edges tup }
    let other := otherEnd f rel
    if other ∈ st.visited then st
    else { st with visited := insert other st.visited
                 , queue := st.queue ++ [(other, d + 1)] }

/-- Relational traversal: the loop over the relationships touching the
current FQN. -/
def relationalPush (q : Query) (f : String) (d : Nat)
    (rels : List Relationship) (s : QState) : QState :=
  rels.foldl (relStep q f d) s

/-- The body of one while-loop iteration of execute_query, after the
current `(fqn, depth)` pair has been dequeued: drop unresolvable FQNs,
serialize the node, run the structural traversal when the element is a
package or module, and run the relational traversal while the current
depth is below the bound. -/
def processNode (m : Metamodel) (q : Query) (f : String) (d : Nat)
    (s : QState) : QState :=
  match m.get_element_by_fqn f with
  | none => s
  | some i =>
    match m.arena.elems[i]? with
    | none => s
    | some e =>
      let s := { s with nodes := dictInsert s.nodes f (serializeElement m i e) }
      let s :=
        if e.kind = .package ∨ e.kind = .module then
          structuralPush m d e.children s
        else s
      if q.depth ≤ d then s
      else relationalPush q f d (m.get_relationships_for_fqn f .both) s

/-- The while loop, iterated on fuel. -/
def runFuel (m : Metamodel) (q : Query) : Nat → QState → QState
  | 0, s => s
  | fuel + 1, s =>
    match s.queue with
    | [] => s
    | (f, d) :: rest =>
      runFuel m q fuel (processNode m q f d { s with queue := rest })

/-- Initial state: the queue seeded with `(root, 0)` for each query
root, the visited set seeded with all root FQNs. -/
def initState (q : Query) : QState :=
  { queue := q.root_fqns.map (fun f => (f, 0))
  , visited := q.root_fqns.toFinset
  , nodes := []
  , edges := [] }

/-- Every FQN the loop can ever enqueue after the roots: a structural
child of some element, or an endpoint of some relationship. -/
def fqnUniverse (m : Metamodel) : Finset String :=
  ((m.arena.elems.flatMap (fun e => e.children.map (fun c => m.arena.fqn c.2)))
    ++ m.rels.flatMap (fun r => [r.source_fqn, r.target_fqn])).toFinset

/-- Termination measure: queue length plus the number of universe FQNs
not yet visited.  Each iteration pops one entry, and every push adds a
fresh universe FQN to the visited set, so the measure drops by one. -/
def qMeasure (m : Metamodel) (s : QState) : Nat :=
  s.queue.length + ((fqnUniverse m) \ s.visited).card

/-- The post-pass of execute_query, for one edge endpoint: if it is not
already in the node dict and it resolves, serialize and add it. -/
def addMissingEndpoint (m : Metamodel) (s : QState) (f : String) : QState :=
  if s.nodes.any (fun kv => kv.1 = f) then s
  else
    match m.get_element_by_fqn f with
    | none => s
    | some i =>
      match m.arena.elems[i]? with
      | none => s
      | some e => { s with nodes := dictInsert s.nodes f (serializeElement m i e) }

/-- The post-pass: every endpoint of a recorded edge that is absent
from the node dict is resolved and added, so no edge dangles.  (The
facade iterates a set comprehension of endpoints; the iteration order
is unspecified there, and immaterial to set-level statements.) -/
def postPass (m : Metamodel) (s : QState) : QState :=
  s.edges.foldl
    (fun st e => addMissingEndpoint m (addMissingEndpoint m st e.1) e.2.1)
    s

/-- The traversal part of AnalysisFacade.execute_query: the while loop
run to completion from the seeded state, followed by the post-pass.
The result's `nodes` and `edges` are `nodes_to_render` and
`edges_to_render` at the point the facade builds its return value. -/
def executeQueryCore (m : Metamodel) (q : Query) : QState :=
  postPass m (runFuel m q (qMeasure m (initState q)) (initState q))

/-- Serialized edge record of the ViewState transport shape. -/
structure EdgeRecord where
  source_fqn : String
  target_fqn : String
  relationship_type : String
deriving DecidableEq, Repr

/-- ViewState dataclass as defined in query_control/view_state.py: it
declares exactly two fields, `nodes` and `edges`. -/
structure ViewState where
  nodes : List NodeRecord
  edges : List EdgeRecord
deriving Repr

/-- The field names of the ViewState dataclass (view_state.py): its
generated `__init__` accepts exactly these keywords. -/
def ViewState.fieldNames : List String := ["nodes", "edges"]

/-- The keyword arguments the facade passes at its return statement
`ViewState(nodes=..., edges=..., root_fqns=query.root_fqns)`
(facade.py, execute_query). -/
def executeQueryReturnKeywords : List String := ["nodes", "edges", "root_fqns"]

/-- A Python dataclass `__init__` call succeeds only when every keyword
argument names a declared field; an unexpected keyword raises
TypeError. -/
def dataclassAccepts (fields kwargs : List String) : Bool :=
  kwargs.all (fun k => fields.contains k)

/-!
Construction pipeline (construction/visitors.py).

A miniature Python AST: exactly the node shapes the two visitors
inspect.  Annotations are carried as their `ast.unparse` string, since
that is the only way the relationship pass consumes them.  Statements
not handled by a visitor are `Stmt.other`, carrying whatever statements
are nested inside them (all the visitors do with them is
`generic_visit`).
-/

/-- Expressions, to the extent the visitors inspect them. -/
inductive Expr where
  | name (id : String)
  | attribute (value : Expr) (attr : String)
  | call (func : Expr)
  | other
deriving DecidableEq, Repr

/-- A function argument: its name and its annotation, already
unparsed (`None` when the parameter is untyped). -/
structure Arg where
  arg : String
  annotation : Option String
deriving DecidableEq, Repr

/-- One name of an import statement, with its optional `as` alias. -/
structure ImportAlias where
  name : String
  asname : Option String
deriving DecidableEq, Repr

/-- Statements, to the extent the visitors dispatch on them. -/
inductive Stmt where
  | classDef (name : String) (bases : List Expr) (body : List Stmt)
  | functionDef (name : String) (args : List Arg) (body : List Stmt)
  | importStmt (names : List ImportAlias)
  | importFrom (module : Option String) (names : List ImportAlias) (level : Nat)
  | assign (targets : List Expr) (value : Expr)
  | other (body : List Stmt)
deriving Repr

/-- Python `str.title()` as used by _snake_to_pascal: uppercase every letter that
follows a non-letter, lowercase every other letter. -/
def pyTitleAux : Bool → List Char → List Char
  | _, [] => []
  | prevAlpha, ch :: rest =>
    (if ch.isAlpha then (if prevAlpha then ch.toLower else ch.toUpper) else ch)
      :: pyTitleAux ch.isAlpha rest

/-- Python str.title on the character list of a string. -/
def pyTitle (s : String) : String :=
  ⟨pyTitleAux false s.data⟩

/-- The _snake_to_pascal helper (visitors.py): replace underscores with spaces,
title-case, strip the spaces.  `str.replace` with single-character
arguments is a character map (for `'_' -> ' '`) respectively a filter
(for removing `' '`). -/
def snakeToPascal (s : String) : String :=
  ⟨(pyTitleAux false (s.data.map (fun c => if c = '_' then ' ' else c))).filter
    (fun c => c ≠ ' ')⟩

/-- Python `'.' in name`. -/
def containsDot (s : String) : Bool :=
  s.data.any (fun c => c = '.')

/-- Python `name.split('.')` on the character list: cut at every dot,
one (possibly empty) segment per gap, never the empty list. -/
def splitDotsAux : List Char → List Char → List String
  | [], acc => [⟨acc.reverse⟩]
  | c :: rest, acc =>
    if c = '.' then ⟨acc.reverse⟩ :: splitDotsAux rest []
    else splitDotsAux rest (c :: acc)

/-- Python `name.split('.')`. -/
def splitDots (s : String) : List String :=
  splitDotsAux s.data []

/-- Python `'.'.join(parts)`. -/
def joinDots : List String → String
  | [] => ""
  | [s] => s
  | s :: rest => s ++ "." ++ joinDots rest

/-- Update the element at slot `i` with the base-class name tokens the
hierarchy pass extracts: `id` of a Name base, the outer `attr` of an
Attribute base, nothing otherwise. -/
def baseToken : Expr → Option String
  | .name id => some id
  | .attribute _ attr => some attr
  | _ => none

/-- Append the extracted base tokens to `base_classes` of slot `i`. -/
def arenaAppendBases (a : Arena) (i : Nat) (bases : List Expr) : Arena :=
  match a.elems[i]? with
  | none => a
  | some e =>
    ⟨a.elems.set i
      { e with base_classes := e.base_classes ++ bases.filterMap baseToken }⟩

/-- State of the HierarchicalVisitor: the model under construction and
`_current_module`. -/
structure P1State where
  model : Metamodel
  currentModule : Nat
deriving Repr

mutual
/-- HierarchicalVisitor dispatch: `visit_ClassDef` creates a
ClassifierUnit, adds it as a child of the current module, registers it,
records the raw base tokens, then generic-visits the class body (so
nested class definitions are attached to the module as well); every
other statement is generic-visited. -/
def pass1Visit (st : P1State) : Stmt → Except String P1State
  | .classDef cname bases body =>
    if cname = "" then
      .error "TypeError: CodeUnit name must be a non-empty string."
    else
      match st.model.arena.addChild st.currentModule
          { name := cname, parent := none, children := [], kind := .classifier } with
      | none => .error "ValueError: child with this name already exists"
      | some (arena', newIdx) =>
        match Metamodel.register_element { st.model with arena := arena' } newIdx with
        | none => .error "KeyError: element with this FQN is already registered"
        | some m2 =>
          pass1VisitList
            { st with model :=
                { m2 with arena := arenaAppendBases m2.arena newIdx bases } }
            body
  | .functionDef _ _ body => pass1VisitList st body
  | .importStmt _ => .ok st
  | .importFrom _ _ _ => .ok st
  | .assign _ _ => .ok st
  | .other body => pass1VisitList st body

/-- generic_visit over a statement list. -/
def pass1VisitList (st : P1State) : List Stmt → Except String P1State
  | [] => .ok st
  | s :: rest =>
    match pass1Visit st s with
    | .error msg => .error msg
    | .ok st' => pass1VisitList st' rest
end

/-- HierarchicalVisitor.visit_module: set the module context and walk
the file's statements. -/
def runHierarchyPass (model : Metamodel) (moduleIdx : Nat) (tree : List Stmt) :
    Except String P1State :=
  pass1VisitList { model := model, currentModule := moduleIdx } tree

/-- State of the RelationshipVisitor: the model (only its relationship
list grows), `_project_name`, `_current_module`, `_current_classifier`
and the per-file `_imports` alias table. -/
structure P2State where
  model : Metamodel
  projectName : String
  currentModule : Nat
  currentClassifier : Option Nat
  imports : List (String × String)
deriving Repr

/-- Alias-table lookup (first match wins, which together with
`dictSet`'s prepend gives Python dict overwrite semantics — the table
is only ever read through this lookup). -/
def lookupDict (l : List (String × String)) (k : String) : Option String :=
  (l.find? (fun kv => kv.1 = k)).map (fun kv => kv.2)

/-- Alias-table assignment. -/
def dictSet (l : List (String × String)) (k v : String) :
    List (String × String) :=
  (k, v) :: l

/-- RelationshipVisitor._resolve_name_to_fqn: exact alias match, then
for dotted names the dotted-prefix alias match and the literal
project-root concatenation, then the current-module fallback; each
candidate is verified against the registry, first verified hit wins. -/
def resolveNameToFqn (st : P2State) (name : String) : Option String :=
  let step1 : Option String :=
    match lookupDict st.imports name with
    | some relative_fqn =>
      let absolute := st.projectName ++ "." ++ relative_fqn
      if (st.model.get_element_by_fqn absolute).isSome then some absolute
      else none
    | none => none
  match step1 with
  | some r => some r
  | none =>
    let step2 : Option String :=
      if containsDot name then
        let s2a : Option String :=
          match splitDots name with
          | [] => none
          | base :: rest =>
            match lookupDict st.imports base with
            | some aliased =>
              let absolute := st.projectName ++ "." ++
                (aliased ++ "." ++ joinDots rest)
              if (st.model.get_element_by_fqn absolute).isSome then some absolute
              else none
            | none => none
        match s2a with
        | some r => some r
        | none =>
          let absolute := st.projectName ++ "." ++ name
          if (st.model.get_element_by_fqn absolute).isSome then some absolute
          else none
      else none
    match step2 with
    | some r => some r
    | none =>
      let potential := st.model.arena.fqn st.currentModule ++ "." ++ name
      if (st.model.get_element_by_fqn potential).isSome then some potential
      else none

/-- RelationshipVisitor.visit_Import. -/
def visitImport (st : P2State) (aliases : List ImportAlias) : P2State :=
  let imps := aliases.foldl
    (fun imps al => dictSet imps (al.asname.getD al.name) al.name) st.imports
  { st with imports := imps }

/-- RelationshipVisitor.visit_ImportFrom: resolve the relative level
against the current module's project-relative path, then record each
imported name. -/
def visitImportFrom (st : P2State) (mod : Option String)
    (aliases : List ImportAlias) (level : Nat) : P2State :=
  let base1 : String :=
    if 0 < level then
      let path_parts := splitDots (st.model.arena.fqn st.currentModule)
      let project_relative := path_parts.drop 1
      joinDots (project_relative.take (project_relative.length - level))
    else ""
  let base_module : String :=
    match mod with
    | some msome => if base1 ≠ "" then base1 ++ "." ++ msome else msome
    | none => base1
  let imps := aliases.foldl
    (fun imps al => dictSet imps (al.asname.getD al.name)
      (if base_module ≠ "" then base_module ++ "." ++ al.name else al.name))
    st.imports
  { st with imports := imps }

/-- RelationshipVisitor._reconstruct_attribute_name. -/
def reconstructAttrAux : Expr → List String → String
  | .attribute v a, acc => reconstructAttrAux v (a :: acc)
  | .name id, acc => joinDots (id :: acc)
  | _, _ => ""

/-- Rebuild a dotted name from a nested Attribute expression; empty
string when the chain does not bottom out at a Name. -/
def reconstructAttributeName (e : Expr) : String :=
  reconstructAttrAux e []

/-- The inheritance loop of visit_ClassDef: resolve each recorded base
token; every resolved and registry-verified hit emits INHERITANCE. -/
def inheritanceFold (st : P2State) (clsIdx : Nat) (baseNames : List String) :
    P2State :=
  baseNames.foldl
    (fun st' base_name =>
      match resolveNameToFqn st' base_name with
      | some resolved =>
        if (st'.model.get_element_by_fqn resolved).isSome then
          let m' := st'.model.register_relationship
            { source_fqn := st'.model.arena.fqn clsIdx
            , target_fqn := resolved, rtype := .INHERITANCE }
          { st' with model := m' }
        else st'
      | none => st')
    st

/-- The first loop of visit_FunctionDef over constructor parameters:
each resolvable, registry-verified annotation emits COMPOSITION and
marks the argument handled. -/
def initAnnotationsFold (st : P2State) (clsIdx : Nat) (args : List Arg) :
    P2State × List String :=
  args.foldl
    (fun acc arg =>
      if arg.arg = "self" then acc
      else
        match arg.annotation with
        | none => acc
        | some annotation_name =>
          match resolveNameToFqn acc.1 annotation_name with
          | some resolved =>
            if (acc.1.model.get_element_by_fqn resolved).isSome then
              let m' := acc.1.model.register_relationship
                { source_fqn := acc.1.model.arena.fqn clsIdx
                , target_fqn := resolved, rtype := .COMPOSITION }
              ({ acc.1 with model := m' }, acc.2 ++ [arg.arg])
            else acc
          | none => acc)
    (st, [])

/-- visit_Assign: a `self.<attr> = SomeName(...)` /
`self.<attr> = some.dotted.Name(...)` assignment inside a classifier
resolves the called name and, if it verifies, emits COMPOSITION. -/
def visitAssign (st : P2State) (clsIdx : Nat) (targets : List Expr)
    (value : Expr) : P2State :=
  match value with
  | .call funcExpr =>
    if targets.length = 1 then
      match targets with
      | [Expr.attribute (Expr.name receiver) _] =>
        if receiver = "self" then
          let class_name :=
            match funcExpr with
            | .name id => id
            | .attribute _ _ => reconstructAttributeName funcExpr
            | _ => ""
          if class_name ≠ "" then
            match resolveNameToFqn st class_name with
            | some resolved =>
              if (st.model.get_element_by_fqn resolved).isSome then
                let m' := st.model.register_relationship
                  { source_fqn := st.model.arena.fqn clsIdx
                  , target_fqn := resolved, rtype := .COMPOSITION }
                { st with model := m' }
              else st
            | none => st
          else st
        else st
      | _ => st
    else st
  | _ => st

mutual
/-- RelationshipVisitor dispatch.  visit_ClassDef looks the classifier
up under `current_module.fqn + "." + name` and returns without
recursing when the lookup fails; when it succeeds it emits the
inheritance edges, visits the body with `_current_classifier` set, and
resets `_current_classifier` to None afterwards.  visit_FunctionDef on
a constructor runs the annotation loop and then, at the first
constructor parameter not named self and not handled by an annotation,
reproduces the source's access to the nonexistent `Metamodel.registry`
attribute (visitors.py line 162) by raising AttributeError.
visit_Assign handles the instance-attribute pattern.  Everything else
is generic-visited. -/
def pass2Visit (st : P2State) : Stmt → Except String P2State
  | .importStmt aliases => .ok (visitImport st aliases)
  | .importFrom mod aliases level => .ok (visitImportFrom st mod aliases level)
  | .classDef cname _ body =>
    match st.model.get_element_by_fqn
        (st.model.arena.fqn st.currentModule ++ "." ++ cname) with
    | none => .ok st
    | some idx =>
      match st.model.arena.elems[idx]? with
      | none => .error "dangling registry entry (unrepresentable in the source)"
      | some e =>
        if e.kind = .classifier then
          match pass2VisitList
              (inheritanceFold { st with currentClassifier := some idx } idx
                e.base_classes) body with
          | .error msg => .error msg
          | .ok st3 => .ok { st3 with currentClassifier := none }
        else .error "AttributeError: object has no attribute base_classes"
  | .functionDef fname args body =>
    match st.currentClassifier with
    | some clsIdx =>
      if fname = "__init__" then
        let acc := initAnnotationsFold st clsIdx args
        if args.any (fun arg => !(("self" :: acc.2).contains arg.arg)) then
          .error "AttributeError: Metamodel object has no attribute registry"
        else pass2VisitList acc.1 body
      else pass2VisitList st body
    | none => pass2VisitList st body
  | .assign targets value =>
    match st.currentClassifier with
    | none => .ok st
    | some clsIdx => .ok (visitAssign st clsIdx targets value)
  | .other body => pass2VisitList st body

/-- generic_visit over a statement list. -/
def pass2VisitList (st : P2State) : List Stmt → Except String P2State
  | [] => .ok st
  | s :: rest =>
    match pass2Visit st s with
    | .error msg => .error msg
    | .ok st' => pass2VisitList st' rest
end

/-- RelationshipVisitor construction plus visit_module: `_project_name`
is the root package's name; the alias table and classifier context
start empty. -/
def runRelationshipPass (model : Metamodel) (moduleIdx : Nat)
    (tree : List Stmt) : Except String P2State :=
  pass2VisitList
    { model := model
    , projectName := ((model.arena.elems[model.rootIdx]?).map ElemData.name).getD ""
    , currentModule := moduleIdx
    , currentClassifier := none
    , imports := [] }
    tree

/-!
Concrete-model builders used by counterexamples and witnesses.
-/

/-- A package element record. -/
def pkgElem (n : String) (p : Option Nat) (ch : List (String × Nat)) : ElemData :=
  { name := n, parent := p, children := ch, kind := .package }

/-- A module element record. -/
def modElem (n : String) (p : Nat) (ch : List (String × Nat)) : ElemData :=
  { name := n, parent := some p, children := ch, kind := .module }

/-- A classifier element record. -/
def clsElem (n : String) (p : Nat) : ElemData :=
  { name := n, parent := some p, children := [], kind := .classifier }

/-- Model for the resolver scenarios of C4: project root `proj` with a
module `proj.m` and a classifier `proj.foo` directly under the root. -/
def c4Model : Metamodel :=
  { arena := ⟨[pkgElem "proj" none [("m", 1), ("foo", 2)], modElem "m" 0 [],
               clsElem "foo" 0]⟩
  , rootIdx := 0
  , registry := [("proj", 0), ("proj.m", 1), ("proj.foo", 2)]
  , rels := [] }

/-- Resolver state inside module `proj.m` of `c4Model`, with an empty
alias table. -/
def c4State : P2State :=
  { model := c4Model, projectName := "proj", currentModule := 1
  , currentClassifier := none, imports := [] }

/-- Variant of `c4Model` with a classifier `C` inside module `proj.m`,
for resolving the dotted token `m.C` against the project root. -/
def c4ModelW : Metamodel :=
  { arena := ⟨[pkgElem "proj" none [("m", 1), ("foo", 2)],
               modElem "m" 0 [("C", 3)], clsElem "foo" 0, clsElem "C" 1]⟩
  , rootIdx := 0
  , registry := [("proj", 0), ("proj.m", 1), ("proj.foo", 2), ("proj.m.C", 3)]
  , rels := [] }

/-- Resolver state inside module `proj.m` of `c4ModelW`, with an empty
alias table. -/
def c4StateW : P2State :=
  { model := c4ModelW, projectName := "proj", currentModule := 1
  , currentClassifier := none, imports := [] }

/-- Model before the construction passes for the composition-heuristic
scenario of C1: project root `proj` with one empty module `proj.m`. -/
def projModel : Metamodel :=
  { arena := ⟨[pkgElem "proj" none [("m", 1)], modElem "m" 0 []]⟩
  , rootIdx := 0, registry := [("proj", 0), ("proj.m", 1)], rels := [] }

/-- Syntax tree of module `proj.m` for C1: a classifier `EventBus`, and
a classifier `Owner` whose `__init__` takes the untyped parameter
`event_bus`. -/
def c1Tree : List Stmt :=
  [ .classDef "EventBus" [] []
  , .classDef "Owner" []
      [ .functionDef "__init__" [⟨"self", none⟩, ⟨"event_bus", none⟩] [] ] ]

/-- Metamodel after the hierarchy pass over `c1Tree`: both classifiers
are attached to the module and registered. -/
def c1AfterP1 : Metamodel :=
  { arena := ⟨[ pkgElem "proj" none [("m", 1)]
              , modElem "m" 0 [("EventBus", 2), ("Owner", 3)]
              , clsElem "EventBus" 1, clsElem "Owner" 1 ]⟩
  , rootIdx := 0
  , registry := [("proj", 0), ("proj.m", 1), ("proj.m.EventBus", 2),
                 ("proj.m.Owner", 3)]
  , rels := [] }

def c5Tree : List Stmt := [.classDef "Outer" [] [.classDef "Inner" [] []]]

def c5AfterP1 : Metamodel :=
  { arena := ⟨[ pkgElem "proj" none [("m", 1)]
              , modElem "m" 0 [("Outer", 2), ("Inner", 3)]
              , clsElem "Outer" 1, clsElem "Inner" 1 ]⟩
  , rootIdx := 0
  , registry := [("proj", 0), ("proj.m", 1), ("proj.m.Outer", 2),
                 ("proj.m.Inner", 3)]
  , rels := [] }

/-- Concrete model for the C3 counterexample: a root package `p` with a
single module child `p.m`. -/
def c3Model : Metamodel :=
  { arena := ⟨[pkgElem "p" none [("m", 1)], modElem "m" 0 []]⟩
  , rootIdx := 0
  , registry := [("p", 0), ("p.m", 1)]
  , rels := [] }

/-- Concrete model refuting depth monotonicity.  The query root `p.r`
reaches `x` both through a relational chain of length 3
(`p.r → c1 → c2 → x`) and through a slower structural chain
(`r → s1 → s2 → s3 → s4 → x`).  At bound 3 the relational chain claims
`x` first at depth 3, so `x` cannot expand to `z`; at bound 2 the chain
is cut at `c2`, the structural walk claims `x` at depth 0, and `x`
expands to `z`. -/
def c6Model : Metamodel :=
  { arena := ⟨[ pkgElem "p" none [("r", 1), ("other", 7)]
              , pkgElem "r" (some 0) [("s1", 2)]
              , pkgElem "s1" (some 1) [("s2", 3)]
              , pkgElem "s2" (some 2) [("s3", 4)]
              , pkgElem "s3" (some 3) [("s4", 5)]
              , pkgElem "s4" (some 4) [("x", 6)]
              , modElem "x" 5 []
              , pkgElem "other" (some 0) [("c1", 8), ("c2", 9), ("z", 10)]
              , clsElem "c1" 7
              , clsElem "c2" 7
              , clsElem "z" 7 ]⟩
  , rootIdx := 0
  , registry :=
      [ ("p", 0), ("p.r", 1), ("p.r.s1", 2), ("p.r.s1.s2", 3)
      , ("p.r.s1.s2.s3", 4), ("p.r.s1.s2.s3.s4", 5), ("p.r.s1.s2.s3.s4.x", 6)
      , ("p.other", 7), ("p.other.c1", 8), ("p.other.c2", 9), ("p.other.z", 10) ]
  , rels :=
      [ { source_fqn := "p.r", target_fqn := "p.other.c1", rtype := .INHERITANCE }
      , { source_fqn := "p.other.c1", target_fqn := "p.other.c2"
        , rtype := .INHERITANCE }
      , { source_fqn := "p.other.c2", target_fqn := "p.r.s1.s2.s3.s4.x"
        , rtype := .INHERITANCE }
      , { source_fqn := "p.r.s1.s2.s3.s4.x", target_fqn := "p.other.z"
        , rtype := .INHERITANCE } ] }

/-- Arena used by the C9 witness: a root package with one module child,
exactly as produced by one `add_child` step. -/
def c9Arena : Arena :=
  ⟨[ { name := "proj", parent := none, children := [("m", 1)], kind := .package }
   , { name := "m", parent := some 0, children := [], kind := .module } ]⟩

/-- A model holding a single self-loop relationship on `p.A`. -/
def c10Model : Metamodel :=
  { arena := ⟨[ { name := "p", parent := none, children := [("A", 1)], kind := .package }
              , { name := "A", parent := some 0, children := [], kind := .classifier } ]⟩
  , rootIdx := 0
  , registry := [("p", 0), ("p.A", 1)]
  , rels := [ { source_fqn := "p.A", target_fqn := "p.A", rtype := .ASSOCIATION } ] }

/-- Model for the C7 witness, mirroring the facade test fixture:
classifiers A, B, C, D under the root with an ASSOCIATION A → B and a
DEPENDENCY B → C. -/
def c7Model : Metamodel :=
  { arena := ⟨[ pkgElem "my_project" none
                  [("A", 1), ("B", 2), ("C", 3), ("D", 4)]
              , clsElem "A" 0, clsElem "B" 0, clsElem "C" 0, clsElem "D" 0 ]⟩
  , rootIdx := 0
  , registry := [ ("my_project", 0), ("my_project.A", 1), ("my_project.B", 2)
                , ("my_project.C", 3), ("my_project.D", 4) ]
  , rels :=
      [ { source_fqn := "my_project.A", target_fqn := "my_project.B"
        , rtype := .ASSOCIATION }
      , { source_fqn := "my_project.B", target_fqn := "my_project.C"
        , rtype := .DEPENDENCY } ] }

/-- The query of the C7 witness: root A, depth 5, DEPENDENCY excluded. -/
def c7Query : Query :=
  { root_fqns := ["my_project.A"], depth := 5
  , filter_rules := [⟨some [.DEPENDENCY]⟩] }

/-- Reachability from the query roots avoiding filtered relationship
kinds: a root; a structural child of a reachable, resolvable container;
or the far endpoint of an unfiltered relationship touching a reachable,
resolvable FQN. -/
inductive ReachNF (m : Metamodel) (q : Query) : String → Prop where
  | root {f : String} : f ∈ q.root_fqns → ReachNF m q f
  | structural {f : String} {i : Nat} {e : ElemData} {c : String × Nat} :
      ReachNF m q f → m.get_element_by_fqn f = some i →
      m.arena.elems[i]? = some e → (e.kind = .package ∨ e.kind = .module) →
      c ∈ e.children → ReachNF m q (m.arena.fqn c.2)
  | relational {f : String} {i : Nat} {e : ElemData} {rel : Relationship} :
      ReachNF m q f → m.get_element_by_fqn f = some i →
      m.arena.elems[i]? = some e →
      rel ∈ m.rels → isFiltered q rel = false →
      (rel.source_fqn = f ∨ rel.target_fqn = f) →
      ReachNF m q (otherEnd f rel)

/-- A recorded edge tuple comes from an unfiltered relationship of the
index, both of whose endpoints are reachable along unfiltered paths. -/
def EdgeOK (m : Metamodel) (q : Query) (t : EdgeTuple) : Prop :=
  ∃ rel, rel ∈ m.rels ∧ isFiltered q rel = false
    ∧ t = (rel.source_fqn, rel.target_fqn, rel.rtype.name)
    ∧ ReachNF m q rel.source_fqn ∧ ReachNF m q rel.target_fqn

/-- The loop invariant for filter correctness. -/
def InvR (m : Metamodel) (q : Query) (s : QState) : Prop :=
  (∀ p ∈ s.queue, ReachNF m q p.1)
  ∧ (∀ kv ∈ s.nodes, ReachNF m q kv.1)
  ∧ (∀ t ∈ s.edges, EdgeOK m q t)

/-- Structural reachability from the roots: a root FQN, or a structural
child of a reachable, resolvable container. -/
inductive SReach (m : Metamodel) (roots : List String) : String → Prop where
  | root {f : String} : f ∈ roots → SReach m roots f
  | child {f : String} {i : Nat} {e : ElemData} {c : String × Nat} :
      SReach m roots f → m.get_element_by_fqn f = some i →
      m.arena.elems[i]? = some e → (e.kind = .package ∨ e.kind = .module) →
      c ∈ e.children → SReach m roots (m.arena.fqn c.2)

/-- Invariant of a depth-0 run: every queued or serialized FQN is in
the structural closure, node records are canonical, and no edge is ever
recorded (the depth test `d < 0` never passes). -/
def Inv0 (m : Metamodel) (roots : List String) (s : QState) : Prop :=
  (∀ p ∈ s.queue, SReach m roots p.1)
  ∧ (∀ kv ∈ s.nodes, SReach m roots kv.1
      ∧ ∃ i e, m.get_element_by_fqn kv.1 = some i
          ∧ m.arena.elems[i]? = some e ∧ kv.2 = serializeElement m i e)
  ∧ s.edges = []

/-- A dequeued-and-resolved FQN: its canonical record is in the node
dict, and (for containers) all its children FQNs are visited. -/
def Processed (m : Metamodel) (s : QState) (x : String) : Prop :=
  ∀ i e, m.get_element_by_fqn x = some i → m.arena.elems[i]? = some e →
    ((x, serializeElement m i e) ∈ s.nodes
     ∧ ((e.kind = .package ∨ e.kind = .module) →
        ∀ c ∈ e.children, m.arena.fqn c.2 ∈ s.visited))

/-- Main loop invariant: queued FQNs are visited, and every visited FQN
is either still queued or fully processed. -/
def Inv6 (m : Metamodel) (s : QState) : Prop :=
  (∀ p ∈ s.queue, p.1 ∈ s.visited)
  ∧ (∀ x ∈ s.visited, (∃ dx, (x, dx) ∈ s.queue) ∨ Processed m s x)

/-- Variant of `Inv6` with an escape hatch for the FQN currently being processed. -/
def Inv6F (m : Metamodel) (f : String) (s : QState) : Prop :=
  (∀ p ∈ s.queue, p.1 ∈ s.visited)
  ∧ (∀ x ∈ s.visited, (∃ dx, (x, dx) ∈ s.queue) ∨ x = f ∨ Processed m s x)

/-- The larger arena keeps every old slot's name, parent link and kind
(children and recorded bases may change). -/
def PreservesSlots (a a' : Arena) : Prop :=
  ∀ (j : Nat) (e : ElemData), a.elems[j]? = some e →
    ∃ e' : ElemData, a'.elems[j]? = some e' ∧
      e'.name = e.name ∧ e'.parent = e.parent ∧ e'.kind = e.kind

/-- Decidable bounded check of the parent-decreasing property. -/
def parentDecrB (a : Arena) : Bool :=
  (List.range a.elems.length).all (fun i =>
    match a.elems[i]? with
    | none => true
    | some e =>
      match e.parent with
      | none => true
      | some p => decide (p < i))

/-- Monotone facts carried across a successful hierarchy-pass step: the
module context is unchanged, the arena only grows, old slots keep name,
parent and kind, every fresh slot is a classifier attached to the
current module, the registry only gains entries, and every fresh slot
is registered under the current module's fqn, a dot, and its name. -/
structure P1Ext (st st' : P1State) : Prop where
  cm : st'.currentModule = st.currentModule
  len : st.model.arena.elems.length ≤ st'.model.arena.elems.length
  pres : PreservesSlots st.model.arena st'.model.arena
  fresh : ∀ (j : Nat) (e' : ElemData), st.model.arena.elems.length ≤ j →
      st'.model.arena.elems[j]? = some e' →
      e'.kind = .classifier ∧ e'.parent = some st.currentModule
  reg : ∃ l, st'.model.registry = st.model.registry ++ l
  regnew : ∀ (j : Nat) (e' : ElemData), st.model.arena.elems.length ≤ j →
      st'.model.arena.elems[j]? = some e' →
      (st'.model.arena.fqn st.currentModule ++ "." ++ e'.name, j)
        ∈ st'.model.registry

/-!
General lemmas about the arena and FQN computation.
-/

namespace Arena

lemma lt_length_of_getElem? {α : Type} {l : List α} {i : Nat} {e : α}
    (h : l[i]? = some e) : i < l.length := by
  by_contra hlt
  rw [List.getElem?_eq_none (Nat.le_of_not_lt hlt)] at h
  exact Option.noConfusion h

lemma fqnAux_none {a : Arena} {i fuel : Nat} (h : a.elems[i]? = none) :
    a.fqnAux (fuel + 1) i = "" := by
  simp [fqnAux, h]

lemma fqnAux_root {a : Arena} {i fuel : Nat} {e : ElemData}
    (h : a.elems[i]? = some e) (hp : e.parent = none) :
    a.fqnAux (fuel + 1) i = e.name := by
  simp [fqnAux, h, hp]

lemma fqnAux_parent {a : Arena} {i p fuel : Nat} {e : ElemData}
    (h : a.elems[i]? = some e) (hp : e.parent = some p) :
    a.fqnAux (fuel + 1) i = a.fqnAux fuel p ++ "." ++ e.name := by
  simp [fqnAux, h, hp]

/-- What `add_child` does to the arena, expressed slot by slot: the
parent slot gains a child entry, the new element lands in a fresh slot
with its back-link set, and everything else is untouched. -/
lemma addChild_spec {a a' : Arena} {p i : Nat} {child : ElemData}
    (h : a.addChild p child = some (a', i)) :
    ∃ pe, a.elems[p]? = some pe
      ∧ i = a.elems.length
      ∧ a'.elems.length = a.elems.length + 1
      ∧ a'.elems[i]? = some { child with parent := some p }
      ∧ a'.elems[p]?
          = some { pe with children := pe.children ++ [(child.name, i)] }
      ∧ (∀ j, j ≠ p → j ≠ i → a'.elems[j]? = a.elems[j]?) := by
  cases hpe : a.elems[p]? with
  | none => simp [addChild, hpe] at h
  | some pe =>
    by_cases hdup : (pe.children.any (fun c => c.1 = child.name)) = true
    · simp [addChild, hpe, hdup] at h
    · simp only [addChild, hpe, hdup, Bool.false_eq_true, if_false,
        Option.some.injEq, Prod.mk.injEq] at h
      obtain ⟨ha', hi⟩ := h
      subst hi
      subst ha'
      have hplt : p < a.elems.length := lt_length_of_getElem? hpe
      refine ⟨pe, rfl, rfl, by simp, ?_, ?_, ?_⟩
      · simp
      · rw [List.getElem?_append_left (by simpa using hplt)]
        simp [hplt]
      · intro j hjp hji
        rcases Nat.lt_trichotomy j a.elems.length with hj | hj | hj
        · rw [List.getElem?_append_left (by simpa using hj),
            List.getElem?_set_ne (fun hx => hjp hx.symm)]
        · exact absurd hj hji
        · rw [List.getElem?_eq_none (l := a.elems) (by omega),
            List.getElem?_eq_none (by simp; omega)]

lemma built_parentDecr {a : Arena} (h : a.Built) : a.ParentDecr := by
  induction h with
  | root name kind =>
    intro i e p hget hp
    cases i with
    | zero =>
      simp only [single] at hget
      injection hget with hget
      rw [← hget] at hp
      exact Option.noConfusion hp
    | succ n =>
      simp [single] at hget
  | step ha name kind bases hadd ih =>
    rename_i a₀ a' p₀ i₀
    intro j e pp hget hp
    obtain ⟨pe, hpe, hi, _, hnew, hpar, hsame⟩ := addChild_spec hadd
    have hplt : p₀ < a₀.elems.length := lt_length_of_getElem? hpe
    by_cases hji : j = i₀
    · subst hji
      rw [hnew] at hget
      injection hget with hget
      rw [← hget] at hp
      have hp' : some p₀ = some pp := hp
      injection hp' with hp''
      omega
    · by_cases hjp : j = p₀
      · subst hjp
        rw [hpar] at hget
        injection hget with hget
        rw [← hget] at hp
        have hp' : pe.parent = some pp := hp
        exact ih j pe pp hpe hp'
      · rw [hsame j hjp hji] at hget
        exact ih j e pp hget hp

lemma fqnAux_congr {a : Arena} (hd : a.ParentDecr) :
    ∀ i f₁ f₂, i < f₁ → i < f₂ → a.fqnAux f₁ i = a.fqnAux f₂ i := by
  intro i
  induction i using Nat.strong_induction_on with
  | _ i ih =>
    intro f₁ f₂ h₁ h₂
    match f₁, f₂ with
    | g₁ + 1, g₂ + 1 =>
      cases hget : a.elems[i]? with
      | none => rw [fqnAux_none hget, fqnAux_none hget]
      | some e =>
        cases hp : e.parent with
        | none => rw [fqnAux_root hget hp, fqnAux_root hget hp]
        | some p =>
          have hpi : p < i := hd i e p hget hp
          rw [fqnAux_parent hget hp, fqnAux_parent hget hp,
            ih p hpi g₁ g₂ (lt_of_lt_of_le hpi (Nat.lt_succ_iff.mp h₁))
              (lt_of_lt_of_le hpi (Nat.lt_succ_iff.mp h₂))]

/-- On a parent-decreasing arena, `fqn` of a root element is its own
name. -/
lemma fqn_eq_root {a : Arena} (hd : a.ParentDecr) {i : Nat} {e : ElemData}
    (hget : a.elems[i]? = some e) (hp : e.parent = none) :
    a.fqn i = e.name := by
  have hi : i < a.elems.length := lt_length_of_getElem? hget
  rw [fqn, fqnAux_congr hd i _ (i + 1) hi (Nat.lt_succ_self i)]
  simp only [fqnAux, hget, hp]

/-- On a parent-decreasing arena, `fqn` of a non-root element is its
parent's fqn, a dot, and its own name — the parent-chain recursion of
`CodeUnit.fqn`. -/
lemma fqn_eq_parent {a : Arena} (hd : a.ParentDecr) {i p : Nat} {e : ElemData}
    (hget : a.elems[i]? = some e) (hp : e.parent = some p) :
    a.fqn i = a.fqn p ++ "." ++ e.name := by
  have hi : i < a.elems.length := lt_length_of_getElem? hget
  have hpi : p < i := hd i e p hget hp
  rw [fqn, fqnAux_congr hd i _ (i + 1) hi (Nat.lt_succ_self i)]
  simp only [fqnAux, hget, hp]
  rw [fqn, fqnAux_congr hd p i a.elems.length hpi (lt_trans hpi hi)]

end Arena

/-!
Claim theorems C9, C10, C2.
-/

/-- Claim C9: in every element tree built by the construction
operations (`add_child` setting the parent back-link on a freshly
created element), for every element reachable in the arena, if it has a
parent then its fqn is the parent's fqn, a dot separator, and its own
name, and if it is the root its fqn is its own name.  Because `Built`
is closed under `add_child` steps, the invariant holds after every
`add_child` operation. -/
theorem c9_fqn_invariant (a : Arena) (hb : a.Built) (i : Nat) (e : ElemData)
    (hget : a.elems[i]? = some e) :
    (e.parent = none → a.fqn i = e.name)
    ∧ (∀ p, e.parent = some p → a.fqn i = a.fqn p ++ "." ++ e.name) := by
  have hd := Arena.built_parentDecr hb
  exact ⟨fun hp => Arena.fqn_eq_root hd hget hp,
         fun p hp => Arena.fqn_eq_parent hd hget hp⟩

lemma c9Arena_built : c9Arena.Built :=
  @Arena.Built.step (Arena.single "proj" .package) c9Arena 0 1
    (Arena.Built.root "proj" .package) "m" .module [] (by decide)

/-- Witness for C9 at a concrete two-element tree. -/
theorem c9_fqn_invariant_witness :
    c9Arena.fqn 1 = c9Arena.fqn 0 ++ "." ++ "m" :=
  (c9_fqn_invariant c9Arena c9Arena_built 1
    { name := "m", parent := some 0, children := [], kind := .module } rfl).2 0 rfl

section C10

lemma getRels_foldl_eq_filter (is_out is_in : Prop) [Decidable is_out]
    [Decidable is_in] (f : String) :
    ∀ (l : List Relationship) (acc : List Relationship),
      l.foldl (fun results rel =>
        if is_out ∧ rel.source_fqn = f then results ++ [rel]
        else if is_in ∧ rel.target_fqn = f then results ++ [rel]
        else results) acc
      = acc ++ l.filter (fun rel =>
          decide ((is_out ∧ rel.source_fqn = f) ∨ (is_in ∧ rel.target_fqn = f))) := by
  intro l
  induction l with
  | nil => intro acc; simp
  | cons rel rest ih =>
    intro acc
    by_cases h1 : is_out ∧ rel.source_fqn = f
    · simp only [List.foldl_cons, if_pos h1, ih, List.filter_cons,
        decide_eq_true_eq]
      rw [if_pos (Or.inl h1), List.append_assoc]
      rfl
    · by_cases h2 : is_in ∧ rel.target_fqn = f
      · simp only [List.foldl_cons, if_neg h1, if_pos h2, ih, List.filter_cons,
          decide_eq_true_eq]
        rw [if_pos (Or.inr h2), List.append_assoc]
        rfl
      · simp only [List.foldl_cons, if_neg h1, if_neg h2, ih, List.filter_cons,
          decide_eq_true_eq]
        rw [if_neg (fun hx => hx.elim h1 h2)]

lemma getRels_eq_filter (m : Metamodel) (f : String) (dir : Direction) :
    m.get_relationships_for_fqn f dir
    = m.rels.filter (fun rel =>
        decide (((dir = .outgoing ∨ dir = .both) ∧ rel.source_fqn = f)
          ∨ ((dir = .incoming ∨ dir = .both) ∧ rel.target_fqn = f))) := by
  simpa using getRels_foldl_eq_filter (dir = .outgoing ∨ dir = .both)
    (dir = .incoming ∨ dir = .both) f m.rels []

/-- Claim C10: a relationship whose source and target both equal the
looked-up FQN is returned exactly once by
`get_relationships_for_fqn(fqn, both)` — each occurrence in the index
contributes one result, never two — and the returned sequence is a
sublist of the index, preserving insertion order. -/
theorem c10_self_loop_counted_once (m : Metamodel) (f : String) (r : Relationship)
    (hs : r.source_fqn = f) (ht : r.target_fqn = f) :
    (m.get_relationships_for_fqn f .both).count r = m.rels.count r
    ∧ (m.get_relationships_for_fqn f .both).Sublist m.rels := by
  rw [getRels_eq_filter]
  exact ⟨List.count_filter (by simp [hs, ht]), List.filter_sublist _⟩

/-- Witness for C10: the self-loop stored once is returned once. -/
theorem c10_self_loop_counted_once_witness :
    ((c10Model.get_relationships_for_fqn "p.A" .both).count
        { source_fqn := "p.A", target_fqn := "p.A", rtype := .ASSOCIATION }
      = c10Model.rels.count
        { source_fqn := "p.A", target_fqn := "p.A", rtype := .ASSOCIATION }
      ∧ (c10Model.get_relationships_for_fqn "p.A" .both).Sublist c10Model.rels)
    ∧ c10Model.rels.count
        { source_fqn := "p.A", target_fqn := "p.A", rtype := .ASSOCIATION } = 1 :=
  ⟨c10_self_loop_counted_once c10Model "p.A" _ rfl rfl, by decide⟩

end C10

/-!
Termination of the traversal (claim C8).  The measure `qMeasure` —
queue length plus unvisited universe FQNs — drops by exactly one per
dequeue: each push lengthens the queue by one but also marks one fresh
universe FQN visited.
-/

section Termination

lemma mem_fqnUniverse_of_child {m : Metamodel} {i : Nat} {e : ElemData}
    (he : m.arena.elems[i]? = some e) {c : String × Nat} (hc : c ∈ e.children) :
    m.arena.fqn c.2 ∈ fqnUniverse m := by
  have hmem : e ∈ m.arena.elems := by
    have hi := Arena.lt_length_of_getElem? he
    exact (List.getElem?_eq_some_iff.mp he).choose_spec ▸ List.getElem_mem _
  unfold fqnUniverse
  rw [List.mem_toFinset, List.mem_append]
  exact Or.inl (List.mem_flatMap.mpr
    ⟨e, hmem, List.mem_map.mpr ⟨c, hc, rfl⟩⟩)

lemma mem_fqnUniverse_of_rel {m : Metamodel} {rel : Relationship}
    (hr : rel ∈ m.rels) :
    rel.source_fqn ∈ fqnUniverse m ∧ rel.target_fqn ∈ fqnUniverse m := by
  unfold fqnUniverse
  constructor <;>
    (rw [List.mem_toFinset, List.mem_append]
     exact Or.inr (List.mem_flatMap.mpr ⟨rel, hr, by simp⟩))

lemma mem_getRels_both {m : Metamodel} {f : String} {rel : Relationship}
    (h : rel ∈ m.get_relationships_for_fqn f .both) :
    rel ∈ m.rels ∧ (rel.source_fqn = f ∨ rel.target_fqn = f) := by
  rw [getRels_eq_filter] at h
  have := List.mem_filter.mp h
  refine ⟨this.1, ?_⟩
  have hp := of_decide_eq_true this.2
  rcases hp with ⟨_, hs⟩ | ⟨_, ht⟩
  · exact Or.inl hs
  · exact Or.inr ht

lemma qMeasure_push {m : Metamodel} (st : QState) (x : String) (k : Nat)
    (hU : x ∈ fqnUniverse m) (hv : x ∉ st.visited) :
    qMeasure m { st with visited := insert x st.visited
                       , queue := st.queue ++ [(x, k)] }
      = qMeasure m st := by
  unfold qMeasure
  simp only [List.length_append, List.length_cons, List.length_nil]
  rw [Finset.sdiff_insert]
  have hmem : x ∈ fqnUniverse m \ st.visited := Finset.mem_sdiff.mpr ⟨hU, hv⟩
  rw [Finset.card_erase_of_mem hmem]
  have hpos : 0 < (fqnUniverse m \ st.visited).card :=
    Finset.card_pos.mpr ⟨x, hmem⟩
  omega

/-- Equation for `structStep` in flat, let-free form. -/
lemma structStep_eq (m : Metamodel) (d : Nat) (st : QState) (c : String × Nat) :
    structStep m d st c =
      if m.arena.fqn c.2 ∈ st.visited then st
      else { st with visited := insert (m.arena.fqn c.2) st.visited
                   , queue := st.queue ++ [(m.arena.fqn c.2, d)] } := rfl

lemma relStep_filtered {q : Query} {rel : Relationship} (f : String) (d : Nat)
    (st : QState) (h : isFiltered q rel = true) :
    relStep q f d st rel = st := by
  simp [relStep, h]

/-- Equation for `relStep` on an unfiltered relationship, in flat,
let-free form. -/
lemma relStep_unfiltered {q : Query} {rel : Relationship} (f : String)
    (d : Nat) (st : QState) (h : isFiltered q rel = false) :
    relStep q f d st rel =
      if otherEnd f rel ∈ st.visited then
        { st with edges :=
            edgeInsert st.edges (rel.source_fqn, rel.target_fqn, rel.rtype.name) }
      else
        { st with
            edges :=
              edgeInsert st.edges (rel.source_fqn, rel.target_fqn, rel.rtype.name)
          , visited := insert (otherEnd f rel) st.visited
          , queue := st.queue ++ [(otherEnd f rel, d + 1)] } := by
  simp only [relStep, h, Bool.false_eq_true, if_false]

lemma foldl_qMeasure {α : Type} {m : Metamodel} (g : QState → α → QState) :
    ∀ (l : List α), (∀ st x, x ∈ l → qMeasure m (g st x) = qMeasure m st) →
      ∀ st, qMeasure m (l.foldl g st) = qMeasure m st := by
  intro l
  induction l with
  | nil => intro _ st; rfl
  | cons x rest ih =>
    intro hg st
    rw [List.foldl_cons,
      ih (fun st' y hy => hg st' y (List.mem_cons_of_mem x hy)) _,
      hg st x (List.mem_cons_self x rest)]

lemma structStep_measure {m : Metamodel} {d : Nat} (st : QState)
    (c : String × Nat) (hU : m.arena.fqn c.2 ∈ fqnUniverse m) :
    qMeasure m (structStep m d st c) = qMeasure m st := by
  rw [structStep_eq]
  by_cases hv : m.arena.fqn c.2 ∈ st.visited
  · rw [if_pos hv]
  · rw [if_neg hv]
    exact qMeasure_push st _ d hU hv

lemma relStep_measure {m : Metamodel} {q : Query} {f : String} {d : Nat}
    (st : QState) (rel : Relationship)
    (hU : rel.source_fqn ∈ fqnUniverse m ∧ rel.target_fqn ∈ fqnUniverse m) :
    qMeasure m (relStep q f d st rel) = qMeasure m st := by
  cases hfil : isFiltered q rel with
  | true => rw [relStep_filtered _ _ _ hfil]
  | false =>
    rw [relStep_unfiltered _ _ _ hfil]
    have hUo : otherEnd f rel ∈ fqnUniverse m := by
      unfold otherEnd
      by_cases hsrc : rel.source_fqn = f
      · rw [if_pos hsrc]; exact hU.2
      · rw [if_neg hsrc]; exact hU.1
    by_cases hv : otherEnd f rel ∈ st.visited
    · rw [if_pos hv]; rfl
    · rw [if_neg hv]
      have := qMeasure_push (m := m)
        { st with edges :=
            edgeInsert st.edges (rel.source_fqn, rel.target_fqn, rel.rtype.name) }
        (otherEnd f rel) (d + 1) hUo hv
      exact this

lemma structuralPush_measure (m : Metamodel) (d : Nat)
    (children : List (String × Nat)) (st : QState)
    (hU : ∀ c ∈ children, m.arena.fqn c.2 ∈ fqnUniverse m) :
    qMeasure m (structuralPush m d children st) = qMeasure m st :=
  foldl_qMeasure _ children (fun st' c hc => structStep_measure st' c (hU c hc)) st

lemma relationalPush_measure (m : Metamodel) (q : Query) (f : String) (d : Nat)
    (rels : List Relationship) (st : QState)
    (hU : ∀ rel ∈ rels, rel.source_fqn ∈ fqnUniverse m
      ∧ rel.target_fqn ∈ fqnUniverse m) :
    qMeasure m (relationalPush q f d rels st) = qMeasure m st :=
  foldl_qMeasure _ rels (fun st' rel hr => relStep_measure st' rel (hU rel hr)) st

end Termination

section ProcessNodeEqns

variable {m : Metamodel} {q : Query} {f : String} {d : Nat} {s : QState}

lemma processNode_unresolved (h : m.get_element_by_fqn f = none) :
    processNode m q f d s = s := by
  simp [processNode, h]

lemma processNode_dangling {i : Nat} (h1 : m.get_element_by_fqn f = some i)
    (h2 : m.arena.elems[i]? = none) :
    processNode m q f d s = s := by
  simp [processNode, h1, h2]

lemma processNode_resolved {i : Nat} {e : ElemData}
    (h1 : m.get_element_by_fqn f = some i) (h2 : m.arena.elems[i]? = some e) :
    processNode m q f d s =
      (let s1 : QState :=
        { s with nodes := dictInsert s.nodes f (serializeElement m i e) }
       let s2 : QState :=
        if e.kind = .package ∨ e.kind = .module then
          structuralPush m d e.children s1
        else s1
       if q.depth ≤ d then s2
       else relationalPush q f d (m.get_relationships_for_fqn f .both) s2) := by
  simp [processNode, h1, h2]

lemma processNode_measure :
    qMeasure m (processNode m q f d s) = qMeasure m s := by
  cases h1 : m.get_element_by_fqn f with
  | none => rw [processNode_unresolved h1]
  | some i =>
    cases h2 : m.arena.elems[i]? with
    | none => rw [processNode_dangling h1 h2]
    | some e =>
      rw [processNode_resolved h1 h2]
      simp only []
      have hm1 : qMeasure m
          { s with nodes := dictInsert s.nodes f (serializeElement m i e) }
          = qMeasure m s := rfl
      set s1 : QState :=
        { s with nodes := dictInsert s.nodes f (serializeElement m i e) }
      have hm2 : qMeasure m (if e.kind = .package ∨ e.kind = .module then
          structuralPush m d e.children s1 else s1) = qMeasure m s1 := by
        by_cases hk : e.kind = .package ∨ e.kind = .module
        · rw [if_pos hk]
          exact structuralPush_measure m d e.children s1
            (fun c hc => mem_fqnUniverse_of_child h2 hc)
        · rw [if_neg hk]
      set s2 : QState := if e.kind = .package ∨ e.kind = .module then
        structuralPush m d e.children s1 else s1
      by_cases hd : q.depth ≤ d
      · rw [if_pos hd, hm2, hm1]
      · rw [if_neg hd]
        rw [relationalPush_measure m q f d _ s2
          (fun rel hr => mem_fqnUniverse_of_rel (mem_getRels_both hr).1),
          hm2, hm1]

end ProcessNodeEqns

section RunFuelLemmas

variable {m : Metamodel} {q : Query}

lemma runFuel_queue_empty {s : QState} (h : s.queue = []) :
    ∀ n, runFuel m q n s = s := by
  intro n
  cases n with
  | zero => rfl
  | succ n => simp [runFuel, h]

lemma runFuel_cons {s : QState} {f : String} {d : Nat}
    {rest : List (String × Nat)} (h : s.queue = (f, d) :: rest) (n : Nat) :
    runFuel m q (n + 1) s
      = runFuel m q n (processNode m q f d { s with queue := rest }) := by
  simp [runFuel, h]

lemma step_measure {s : QState} {f : String} {d : Nat}
    {rest : List (String × Nat)} (h : s.queue = (f, d) :: rest) :
    qMeasure m (processNode m q f d { s with queue := rest }) + 1
      = qMeasure m s := by
  rw [processNode_measure]
  unfold qMeasure
  rw [h]
  simp only [List.length_cons]
  omega

lemma runFuel_sufficient :
    ∀ (n : Nat) (s : QState), qMeasure m s ≤ n → (runFuel m q n s).queue = [] := by
  intro n
  induction n with
  | zero =>
    intro s h
    have hql : s.queue.length = 0 := by unfold qMeasure at h; omega
    have hq := List.length_eq_zero.mp hql
    rw [runFuel_queue_empty hq]
    exact hq
  | succ n ih =>
    intro s h
    cases hq : s.queue with
    | nil => rw [runFuel_queue_empty hq]; exact hq
    | cons fd rest =>
      obtain ⟨f, d⟩ := fd
      rw [runFuel_cons hq]
      apply ih
      have hdec := step_measure (m := m) (q := q) hq
      omega

lemma runFuel_add :
    ∀ (n k : Nat) (s : QState),
      runFuel m q (n + k) s = runFuel m q k (runFuel m q n s) := by
  intro n
  induction n with
  | zero => intro k s; rw [Nat.zero_add]; rfl
  | succ n ih =>
    intro k s
    cases hq : s.queue with
    | nil =>
      simp [runFuel_queue_empty hq]
    | cons fd rest =>
      obtain ⟨f, d⟩ := fd
      rw [show n + 1 + k = (n + k) + 1 by omega, runFuel_cons hq,
        runFuel_cons hq, ih]

end RunFuelLemmas

/-- Claim C8: for every model (finite registry, finite relationship
index) and every query — any roots, any depth bound, any filter rules —
the breadth-first loop of `execute_query` terminates: it empties its
queue within `qMeasure` iterations (queue length plus the number of
unvisited candidate FQNs, which is finite), and running it any longer
changes nothing.  Each FQN is admitted to the queue at most once by the
visited set, which is what makes the measure drop at every dequeue. -/
theorem c8_traversal_terminates (m : Metamodel) (q : Query) :
    (runFuel m q (qMeasure m (initState q)) (initState q)).queue = []
    ∧ ∀ k, runFuel m q (qMeasure m (initState q) + k) (initState q)
        = runFuel m q (qMeasure m (initState q)) (initState q) := by
  constructor
  · exact runFuel_sufficient _ _ (Nat.le_refl _)
  · intro k
    rw [runFuel_add]
    exact runFuel_queue_empty (runFuel_sufficient _ _ (Nat.le_refl _)) k

lemma parentDecr_of_b {a : Arena} (h : parentDecrB a = true) : a.ParentDecr := by
  intro i e p hget hp
  have hi := Arena.lt_length_of_getElem? hget
  have h2 := List.all_eq_true.mp h i (List.mem_range.mpr hi)
  simp only [hget, hp] at h2
  exact of_decide_eq_true h2

namespace Arena

lemma fqnAux_ext {a a' : Arena} (hd : a.ParentDecr)
    (hp : PreservesSlots a a') :
    ∀ fuel i, i < a.elems.length → a'.fqnAux fuel i = a.fqnAux fuel i := by
  intro fuel
  induction fuel with
  | zero => intro i _; rfl
  | succ g ih =>
    intro i hi
    cases hget : a.elems[i]? with
    | none =>
      exact absurd hget (by simp [List.getElem?_eq_getElem hi])
    | some e =>
      obtain ⟨e', hget', hn, hpar, _⟩ := hp i e hget
      cases hpe : e.parent with
      | none =>
        rw [fqnAux_root hget' (by rw [hpar, hpe]), fqnAux_root hget hpe, hn]
      | some p =>
        have hpi : p < i := hd i e p hget hpe
        rw [fqnAux_parent hget' (by rw [hpar, hpe]), fqnAux_parent hget hpe,
          hn, ih p (lt_trans hpi hi)]

lemma fqn_ext {a a' : Arena} (hd : a.ParentDecr) (hp : PreservesSlots a a')
    {i : Nat} (hi : i < a.elems.length)
    (hlen : a.elems.length ≤ a'.elems.length) :
    a'.fqn i = a.fqn i := by
  rw [fqn, fqn, fqnAux_ext hd hp _ i hi]
  exact fqnAux_congr hd i _ _ (lt_of_lt_of_le hi hlen) hi

lemma addChild_parentDecr {a a' : Arena} {p i : Nat} {child : ElemData}
    (hd : a.ParentDecr) (h : a.addChild p child = some (a', i)) :
    a'.ParentDecr := by
  obtain ⟨pe, hpe, hi, _, hnew, hpar, hsame⟩ := addChild_spec h
  have hplt : p < a.elems.length := lt_length_of_getElem? hpe
  intro j e pp hget hp
  by_cases hji : j = i
  · subst hji
    rw [hnew] at hget
    injection hget with hget
    rw [← hget] at hp
    have hp' : some p = some pp := hp
    injection hp' with hp''
    omega
  · by_cases hjp : j = p
    · subst hjp
      rw [hpar] at hget
      injection hget with hget
      rw [← hget] at hp
      exact hd j pe pp hpe hp
    · rw [hsame j hjp hji] at hget
      exact hd j e pp hget hp

lemma arenaAppendBases_length (a : Arena) (i : Nat) (bs : List Expr) :
    (arenaAppendBases a i bs).elems.length = a.elems.length := by
  unfold arenaAppendBases
  cases h : a.elems[i]? with
  | none => rfl
  | some e => simp

lemma arenaAppendBases_skel (a : Arena) (i : Nat) (bs : List Expr) (j : Nat) :
    ((arenaAppendBases a i bs).elems[j]?).map
        (fun e => (e.name, e.parent, e.kind))
      = (a.elems[j]?).map (fun e => (e.name, e.parent, e.kind)) := by
  unfold arenaAppendBases
  cases h : a.elems[i]? with
  | none => rfl
  | some e =>
    dsimp only
    by_cases hj : j = i
    · subst hj
      have hlt : j < a.elems.length := lt_length_of_getElem? h
      rw [List.getElem?_set_eq_of_lt _ hlt, h]
      rfl
    · rw [List.getElem?_set_ne (fun hx => hj hx.symm)]

lemma arenaAppendBases_pres (a : Arena) (i : Nat) (bs : List Expr) :
    PreservesSlots a (arenaAppendBases a i bs) := by
  intro j e hget
  have hs := arenaAppendBases_skel a i bs j
  rw [hget] at hs
  cases hget' : (arenaAppendBases a i bs).elems[j]? with
  | none => rw [hget'] at hs; exact absurd hs (by simp)
  | some e' =>
    rw [hget'] at hs
    simp only [Option.map_some', Option.some.injEq, Prod.mk.injEq] at hs
    exact ⟨e', rfl, hs.1, hs.2.1, hs.2.2⟩

lemma parentDecr_of_skel {a a' : Arena}
    (hs : ∀ j : Nat, (a'.elems[j]?).map
        (fun e => (e.name, e.parent, e.kind))
      = (a.elems[j]?).map (fun e => (e.name, e.parent, e.kind)))
    (hd : a.ParentDecr) : a'.ParentDecr := by
  intro j e' p hget hp
  have h := hs j
  rw [hget] at h
  cases hget2 : a.elems[j]? with
  | none => rw [hget2] at h; exact absurd h (by simp)
  | some e =>
    rw [hget2] at h
    simp only [Option.map_some', Option.some.injEq, Prod.mk.injEq] at h
    exact hd j e p hget2 (h.2.1 ▸ hp)

lemma arenaAppendBases_parentDecr {a : Arena} (i : Nat) (bs : List Expr)
    (hd : a.ParentDecr) : (arenaAppendBases a i bs).ParentDecr :=
  parentDecr_of_skel (arenaAppendBases_skel a i bs) hd

end Arena

lemma P1Ext.refl (st : P1State) : P1Ext st st := by
  refine ⟨rfl, Nat.le_refl _, ?_, ?_, ⟨[], by simp⟩, ?_⟩
  · intro j e hget
    exact ⟨e, hget, rfl, rfl, rfl⟩
  · intro j e' hj hget
    have := Arena.lt_length_of_getElem? hget
    omega
  · intro j e' hj hget
    have := Arena.lt_length_of_getElem? hget
    omega

lemma P1Ext.trans {st st1 st2 : P1State}
    (h1 : P1Ext st st1) (h2 : P1Ext st1 st2)
    (hpd1 : st1.model.arena.ParentDecr) : P1Ext st st2 := by
  refine ⟨h2.cm.trans h1.cm, Nat.le_trans h1.len h2.len, ?_, ?_, ?_, ?_⟩
  · intro j e hget
    obtain ⟨e1, hget1, hn1, hp1, hk1⟩ := h1.pres j e hget
    obtain ⟨e2, hget2, hn2, hp2, hk2⟩ := h2.pres j e1 hget1
    exact ⟨e2, hget2, hn2.trans hn1, hp2.trans hp1, hk2.trans hk1⟩
  · intro j e' hj hget
    by_cases hj1 : st1.model.arena.elems.length ≤ j
    · have := h2.fresh j e' hj1 hget
      rw [h1.cm] at this
      exact this
    · have hjlt : j < st1.model.arena.elems.length := Nat.lt_of_not_le hj1
      have hget1 : st1.model.arena.elems[j]? = some st1.model.arena.elems[j] :=
        List.getElem?_eq_getElem hjlt
      obtain ⟨hk1, hp1⟩ := h1.fresh j _ hj hget1
      obtain ⟨e2, hget2, hn2, hp2, hk2⟩ := h2.pres j _ hget1
      rw [hget2] at hget
      injection hget with hget
      subst hget
      exact ⟨hk2.trans hk1, hp2.trans hp1⟩
  · obtain ⟨l1, hl1⟩ := h1.reg
    obtain ⟨l2, hl2⟩ := h2.reg
    exact ⟨l1 ++ l2, by rw [hl2, hl1, List.append_assoc]⟩
  · intro j e' hj hget
    by_cases hj1 : st1.model.arena.elems.length ≤ j
    · have := h2.regnew j e' hj1 hget
      rw [h1.cm] at this
      exact this
    · have hjlt : j < st1.model.arena.elems.length := Nat.lt_of_not_le hj1
      have hget1 : st1.model.arena.elems[j]? = some st1.model.arena.elems[j] :=
        List.getElem?_eq_getElem hjlt
      obtain ⟨hk1, hp1⟩ := h1.fresh j _ hj hget1
      have hmem1 := h1.regnew j _ hj hget1
      obtain ⟨e2, hget2, hn2, hp2, hk2⟩ := h2.pres j _ hget1
      rw [hget2] at hget
      injection hget with hget
      subst hget
      have hcm_lt : st.currentModule < st1.model.arena.elems.length := by
        have := hpd1 j _ st.currentModule hget1 hp1
        omega
      have hfq : st2.model.arena.fqn st.currentModule
          = st1.model.arena.fqn st.currentModule :=
        Arena.fqn_ext hpd1 h2.pres hcm_lt h2.len
      rw [hfq, hn2]
      obtain ⟨l2, hl2⟩ := h2.reg
      rw [hl2]
      exact List.mem_append_left _ hmem1

lemma pass1_classDef_head {st : P1State} {cname : String} (bases : List Expr)
    {arena' : Arena} {newIdx : Nat} {m2 : Metamodel}
    (hpd : st.model.arena.ParentDecr)
    (hadd : st.model.arena.addChild st.currentModule
      { name := cname, parent := none, children := [], kind := .classifier }
      = some (arena', newIdx))
    (hreg : Metamodel.register_element { st.model with arena := arena' } newIdx
      = some m2) :
    P1Ext st { st with model :=
        { m2 with arena := arenaAppendBases m2.arena newIdx bases } }
    ∧ (arenaAppendBases m2.arena newIdx bases).ParentDecr := by
  obtain ⟨pe, hpe, hIdx, hlen', hnew, hpar, hsame⟩ := Arena.addChild_spec hadd
  have hcm_lt : st.currentModule < st.model.arena.elems.length :=
    Arena.lt_length_of_getElem? hpe
  have hd' : arena'.ParentDecr := Arena.addChild_parentDecr hpd hadd
  unfold Metamodel.register_element at hreg
  dsimp only at hreg
  split at hreg
  · exact absurd hreg (by simp)
  · injection hreg with hreg
    subst hreg
    have hd'' := Arena.arenaAppendBases_parentDecr (a := arena') newIdx bases hd'
    have presA := Arena.arenaAppendBases_pres arena' newIdx bases
    have hlenA := Arena.arenaAppendBases_length arena' newIdx bases
    refine ⟨⟨rfl, by dsimp only; rw [hlenA, hlen']; omega, ?_, ?_, ⟨_, rfl⟩, ?_⟩,
      hd''⟩
    · intro j e hget
      dsimp only
      by_cases hjp : j = st.currentModule
      · subst hjp
        rw [hpe] at hget
        injection hget with hget
        subst hget
        obtain ⟨e2, hget2, hn2, hp2, hk2⟩ := presA _ _ hpar
        exact ⟨e2, hget2, hn2, hp2, hk2⟩
      · have hjlt : j < st.model.arena.elems.length :=
          Arena.lt_length_of_getElem? hget
        have hji : j ≠ newIdx := by omega
        have hj' : arena'.elems[j]? = some e := by rw [hsame j hjp hji, hget]
        exact presA j e hj'
    · intro j e' hj hget
      dsimp only at hget
      have hjlt : j < (arenaAppendBases arena' newIdx bases).elems.length :=
        Arena.lt_length_of_getElem? hget
      rw [hlenA, hlen'] at hjlt
      have hj_eq : j = newIdx := by omega
      rw [hj_eq] at hget
      have hs := Arena.arenaAppendBases_skel arena' newIdx bases newIdx
      rw [hget, hnew] at hs
      simp only [Option.map_some', Option.some.injEq, Prod.mk.injEq] at hs
      exact ⟨hs.2.2, hs.2.1⟩
    · intro j e' hj hget
      dsimp only at hget ⊢
      have hjlt : j < (arenaAppendBases arena' newIdx bases).elems.length :=
        Arena.lt_length_of_getElem? hget
      rw [hlenA, hlen'] at hjlt
      have hj_eq : j = newIdx := by omega
      rw [hj_eq] at hget ⊢
      have hs := Arena.arenaAppendBases_skel arena' newIdx bases newIdx
      rw [hget, hnew] at hs
      simp only [Option.map_some', Option.some.injEq, Prod.mk.injEq] at hs
      have hname : e'.name = cname := hs.1
      have hkey : arena'.fqn newIdx
          = arena'.fqn st.currentModule ++ "." ++ cname :=
        Arena.fqn_eq_parent hd' hnew rfl
      have hfq : (arenaAppendBases arena' newIdx bases).fqn st.currentModule
          = arena'.fqn st.currentModule := by
        refine Arena.fqn_ext hd' presA ?_ ?_
        · rw [hlen']; omega
        · rw [hlenA]
      rw [hfq, hname, ← hkey]
      exact List.mem_append_right _ (by simp)

mutual
theorem pass1Visit_ext : ∀ (st st' : P1State) (s : Stmt),
    st.model.arena.ParentDecr → pass1Visit st s = .ok st' →
    P1Ext st st' ∧ st'.model.arena.ParentDecr
  | st, st', .classDef cname bases body, hpd, h => by
    unfold pass1Visit at h
    split at h
    · exact absurd h (by simp)
    · split at h
      · exact absurd h (by simp)
      · rename_i arena' newIdx hadd
        split at h
        · exact absurd h (by simp)
        · rename_i m2 hreg
          obtain ⟨hext, hpdA⟩ := pass1_classDef_head bases hpd hadd hreg
          obtain ⟨e2, hd2⟩ := pass1VisitList_ext _ st' body hpdA h
          exact ⟨P1Ext.trans hext e2 hpdA, hd2⟩
  | st, st', .functionDef n args body, hpd, h => by
    unfold pass1Visit at h
    exact pass1VisitList_ext st st' body hpd h
  | st, st', .importStmt ns, hpd, h => by
    unfold pass1Visit at h
    injection h with h
    subst h
    exact ⟨P1Ext.refl st, hpd⟩
  | st, st', .importFrom m ns lv, hpd, h => by
    unfold pass1Visit at h
    injection h with h
    subst h
    exact ⟨P1Ext.refl st, hpd⟩
  | st, st', .assign t v, hpd, h => by
    unfold pass1Visit at h
    injection h with h
    subst h
    exact ⟨P1Ext.refl st, hpd⟩
  | st, st', .other body, hpd, h => by
    unfold pass1Visit at h
    exact pass1VisitList_ext st st' body hpd h

theorem pass1VisitList_ext : ∀ (st st' : P1State) (l : List Stmt),
    st.model.arena.ParentDecr → pass1VisitList st l = .ok st' →
    P1Ext st st' ∧ st'.model.arena.ParentDecr
  | st, st', [], hpd, h => by
    unfold pass1VisitList at h
    injection h with h
    subst h
    exact ⟨P1Ext.refl st, hpd⟩
  | st, st', s :: rest, hpd, h => by
    unfold pass1VisitList at h
    split at h
    · exact absurd h (by simp)
    · rename_i st1 hstep
      obtain ⟨e1, hd1⟩ := pass1Visit_ext st st1 s hpd hstep
      obtain ⟨e2, hd2⟩ := pass1VisitList_ext st1 st' rest hd1 h
      exact ⟨P1Ext.trans e1 e2 hd1, hd2⟩
end

/-!
Claim C3: depth-0 queries.
-/

section C3

lemma run_post_of_empty {m : Metamodel} {q : Query} {n : Nat} {s : QState}
    (hq : s.queue = []) (he : s.edges = []) :
    postPass m (runFuel m q n s) = s := by
  rw [runFuel_queue_empty hq]
  unfold postPass
  rw [he]
  rfl

lemma processNode_atDepth {m : Metamodel} {q : Query} {f : String} {d : Nat}
    {s : QState} {i : Nat} {e : ElemData}
    (h1 : m.get_element_by_fqn f = some i) (h2 : m.arena.elems[i]? = some e)
    (hd : q.depth ≤ d)
    (hnc : e.children = [] ∨ ¬(e.kind = .package ∨ e.kind = .module)) :
    processNode m q f d s
      = { s with nodes := dictInsert s.nodes f (serializeElement m i e) } := by
  rw [processNode_resolved h1 h2]
  simp only [if_pos hd]
  rcases hnc with hc | hk
  · rw [hc]
    by_cases hkind : e.kind = .package ∨ e.kind = .module
    · rw [if_pos hkind]
      rfl
    · rw [if_neg hkind]
  · rw [if_neg hk]

/-- Counterexample to claim C3 as stated: `p` resolves in the registry,
yet the depth-0 query rooted at `p` yields the two nodes `p` and `p.m`,
not exactly the one node `p` — structural traversal costs no depth, so
the substructure of a container root is exposed even at depth 0. -/
theorem c3_depth0_counterexample :
    (c3Model.get_element_by_fqn "p").isSome = true
    ∧ (executeQueryCore c3Model ⟨["p"], 0, []⟩).nodes.map Prod.fst
        = ["p", "p.m"]
    ∧ (executeQueryCore c3Model ⟨["p"], 0, []⟩).edges = [] := by
  refine ⟨rfl, by decide, by decide⟩

/-- Claim C3 amended: a depth-0 query on a root `R` that resolves
yields zero edges, and yields exactly the one node `R` provided `R`'s
element exposes no structural substructure (it is not a package/module,
or has no children); a container root with children additionally
exposes its full substructure even at depth 0. -/
theorem c3_depth0_exactness (m : Metamodel) (R : String) (i : Nat) (e : ElemData)
    (hres : m.get_element_by_fqn R = some i)
    (harena : m.arena.elems[i]? = some e)
    (hnc : e.children = [] ∨ ¬(e.kind = .package ∨ e.kind = .module)) :
    (executeQueryCore m ⟨[R], 0, []⟩).nodes = [(R, serializeElement m i e)]
    ∧ (executeQueryCore m ⟨[R], 0, []⟩).edges = [] := by
  have hq : (initState (⟨[R], 0, []⟩ : Query)).queue = (R, 0) :: [] := rfl
  have hμ : qMeasure m (initState (⟨[R], 0, []⟩ : Query))
      = ((fqnUniverse m) \ (initState (⟨[R], 0, []⟩ : Query)).visited).card + 1 := by
    unfold qMeasure
    rw [hq]
    simp [Nat.add_comm]
  unfold executeQueryCore
  rw [hμ, runFuel_cons hq,
    processNode_atDepth hres harena (Nat.le_refl 0) hnc,
    run_post_of_empty rfl rfl]
  constructor
  · show dictInsert [] R (serializeElement m i e) = _
    simp [dictInsert]
  · rfl

/-- Witness for the amended C3 at a concrete module with no children. -/
theorem c3_depth0_exactness_witness :
    (executeQueryCore c3Model ⟨["p.m"], 0, []⟩).nodes
      = [("p.m", serializeElement c3Model 1 (modElem "m" 0 []))]
    ∧ (executeQueryCore c3Model ⟨["p.m"], 0, []⟩).edges = [] :=
  c3_depth0_exactness c3Model "p.m" 1 (modElem "m" 0 [])
    (by decide) (by decide) (Or.inl rfl)

end C3

/-!
Claim C6: depth monotonicity fails on the code.
-/

section C6Model

/-- Counterexample to claim C6 as stated: on `c6Model`, the node
`p.other.z` and the edge `x → z` appear in the depth-2 result but not
in the depth-3 result, so neither the node set nor the edge set at
depth d is a subset of those at depth d+1. -/
theorem c6_monotonicity_counterexample :
    "p.other.z" ∈ (executeQueryCore c6Model ⟨["p.r"], 2, []⟩).nodes.map Prod.fst
    ∧ "p.other.z" ∉ (executeQueryCore c6Model ⟨["p.r"], 3, []⟩).nodes.map Prod.fst
    ∧ ("p.r.s1.s2.s3.s4.x", "p.other.z", "INHERITANCE")
        ∈ (executeQueryCore c6Model ⟨["p.r"], 2, []⟩).edges
    ∧ ("p.r.s1.s2.s3.s4.x", "p.other.z", "INHERITANCE")
        ∉ (executeQueryCore c6Model ⟨["p.r"], 3, []⟩).edges := by
  refine ⟨by decide, by decide, by decide, by decide⟩

end C6Model

/-!
Generic preservation lemmas for the traversal state.
-/

section StateLemmas

lemma foldl_preserve {α : Type} (g : QState → α → QState) (P : QState → Prop) :
    ∀ (l : List α), (∀ st x, x ∈ l → P st → P (g st x)) →
      ∀ st, P st → P (l.foldl g st) := by
  intro l
  induction l with
  | nil => intro _ st h; exact h
  | cons x rest ih =>
    intro hg st h
    rw [List.foldl_cons]
    exact ih (fun st' y hy => hg st' y (List.mem_cons_of_mem x hy)) _
      (hg st x (List.mem_cons_self x rest) h)

lemma mem_dictInsert {l : List (String × NodeRecord)} {k : String}
    {v : NodeRecord} {kv : String × NodeRecord}
    (h : kv ∈ dictInsert l k v) : kv ∈ l ∨ kv = (k, v) := by
  unfold dictInsert at h
  by_cases hany : l.any (fun kv' => kv'.1 = k) = true
  · rw [if_pos hany] at h
    obtain ⟨x, hx, hmap⟩ := List.mem_map.mp h
    by_cases hxk : x.1 = k
    · right; rw [← hmap, if_pos hxk]
    · left; rw [← hmap, if_neg hxk]; exact hx
  · rw [if_neg hany] at h
    rcases List.mem_append.mp h with h1 | h1
    · exact Or.inl h1
    · right; simpa using h1

lemma mem_dictInsert_self (l : List (String × NodeRecord)) (k : String)
    (v : NodeRecord) : (k, v) ∈ dictInsert l k v := by
  unfold dictInsert
  by_cases hany : l.any (fun kv' => kv'.1 = k) = true
  · rw [if_pos hany]
    obtain ⟨x, hx, hxk⟩ := List.any_eq_true.mp hany
    refine List.mem_map.mpr ⟨x, hx, ?_⟩
    rw [if_pos (of_decide_eq_true hxk)]
  · rw [if_neg hany]
    simp

lemma dictInsert_mem_of_mem {l : List (String × NodeRecord)} {k : String}
    {v : NodeRecord} {kv : String × NodeRecord} (hkv : kv ∈ l)
    (h : kv.1 = k → kv.2 = v) : kv ∈ dictInsert l k v := by
  unfold dictInsert
  by_cases hany : l.any (fun kv' => kv'.1 = k) = true
  · rw [if_pos hany]
    refine List.mem_map.mpr ⟨kv, hkv, ?_⟩
    by_cases hk : kv.1 = k
    · rw [if_pos hk]
      exact (Prod.ext hk (h hk)).symm
    · rw [if_neg hk]
  · rw [if_neg hany]
    exact List.mem_append_left _ hkv

lemma mem_edgeInsert {l : List EdgeTuple} {e t : EdgeTuple}
    (h : t ∈ edgeInsert l e) : t ∈ l ∨ t = e := by
  unfold edgeInsert at h
  by_cases he : e ∈ l
  · rw [if_pos he] at h; exact Or.inl h
  · rw [if_neg he] at h
    rcases List.mem_append.mp h with h1 | h1
    · exact Or.inl h1
    · right; simpa using h1

lemma runFuel_inv {m : Metamodel} {q : Query} (P : QState → Prop)
    (hstep : ∀ f d rest (s : QState), s.queue = (f, d) :: rest → P s →
      P (processNode m q f d { s with queue := rest })) :
    ∀ n s, P s → P (runFuel m q n s) := by
  intro n
  induction n with
  | zero => intro s h; exact h
  | succ n ih =>
    intro s h
    cases hq : s.queue with
    | nil => rw [runFuel_queue_empty hq]; exact h
    | cons fd rest =>
      obtain ⟨f, d⟩ := fd
      rw [runFuel_cons hq]
      exact ih _ (hstep f d rest s hq h)

end StateLemmas

/-!
Claim C7: filter correctness.  `ReachNF` is reachability from the query
roots through structural containment and unfiltered relationships (in
either direction) — the paths the claim says must exist for every
output node.
-/

section C7

lemma structStep_InvR {m : Metamodel} {q : Query} {d : Nat} {f : String}
    {i : Nat} {e : ElemData}
    (hf : ReachNF m q f) (h1 : m.get_element_by_fqn f = some i)
    (h2 : m.arena.elems[i]? = some e)
    (hkind : e.kind = .package ∨ e.kind = .module)
    {c : String × Nat} (hc : c ∈ e.children)
    {st : QState} (h : InvR m q st) : InvR m q (structStep m d st c) := by
  rw [structStep_eq]
  by_cases hv : m.arena.fqn c.2 ∈ st.visited
  · rw [if_pos hv]; exact h
  · rw [if_neg hv]
    refine ⟨?_, h.2.1, h.2.2⟩
    intro p hp
    rcases List.mem_append.mp hp with h1' | h1'
    · exact h.1 p h1'
    · have : p = (m.arena.fqn c.2, d) := by simpa using h1'
      rw [this]
      exact ReachNF.structural hf h1 h2 hkind hc

lemma relStep_InvR {m : Metamodel} {q : Query} {d : Nat} {f : String}
    {i : Nat} {e : ElemData}
    (hf : ReachNF m q f) (h1 : m.get_element_by_fqn f = some i)
    (h2 : m.arena.elems[i]? = some e)
    {rel : Relationship} (hrel : rel ∈ m.rels)
    (hend : rel.source_fqn = f ∨ rel.target_fqn = f)
    {st : QState} (h : InvR m q st) : InvR m q (relStep q f d st rel) := by
  cases hfil : isFiltered q rel with
  | true => rw [relStep_filtered _ _ _ hfil]; exact h
  | false =>
    have hother : ReachNF m q (otherEnd f rel) :=
      ReachNF.relational hf h1 h2 hrel hfil hend
    have hsrcR : ReachNF m q rel.source_fqn := by
      by_cases hs : rel.source_fqn = f
      · rw [hs]; exact hf
      · have he : otherEnd f rel = rel.source_fqn := by
          unfold otherEnd; rw [if_neg hs]
        rw [← he]; exact hother
    have htgtR : ReachNF m q rel.target_fqn := by
      by_cases hs : rel.source_fqn = f
      · have he : otherEnd f rel = rel.target_fqn := by
          unfold otherEnd; rw [if_pos hs]
        rw [← he]; exact hother
      · rcases hend with h' | h'
        · exact absurd h' hs
        · rw [h']; exact hf
    have hedges : ∀ t ∈ edgeInsert st.edges
        (rel.source_fqn, rel.target_fqn, rel.rtype.name), EdgeOK m q t := by
      intro t ht
      rcases mem_edgeInsert ht with hold | hnew
      · exact h.2.2 t hold
      · rw [hnew]
        exact ⟨rel, hrel, hfil, rfl, hsrcR, htgtR⟩
    rw [relStep_unfiltered _ _ _ hfil]
    by_cases hv : otherEnd f rel ∈ st.visited
    · rw [if_pos hv]
      exact ⟨h.1, h.2.1, hedges⟩
    · rw [if_neg hv]
      refine ⟨?_, h.2.1, hedges⟩
      intro p hp
      rcases List.mem_append.mp hp with h1' | h1'
      · exact h.1 p h1'
      · have : p = (otherEnd f rel, d + 1) := by simpa using h1'
        rw [this]
        exact hother

lemma processNode_InvR {m : Metamodel} {q : Query} {f : String} {d : Nat}
    {rest : List (String × Nat)} {s : QState} (hq : s.queue = (f, d) :: rest)
    (h : InvR m q s) : InvR m q (processNode m q f d { s with queue := rest }) := by
  have hf : ReachNF m q f := by
    have := h.1 (f, d) (by rw [hq]; exact List.mem_cons_self _ _)
    exact this
  have h' : InvR m q { s with queue := rest } :=
    ⟨fun p hp => h.1 p (by rw [hq]; exact List.mem_cons_of_mem _ hp),
     h.2.1, h.2.2⟩
  cases h1 : m.get_element_by_fqn f with
  | none => rw [processNode_unresolved h1]; exact h'
  | some i =>
    cases h2 : m.arena.elems[i]? with
    | none => rw [processNode_dangling h1 h2]; exact h'
    | some e =>
      rw [processNode_resolved h1 h2]
      simp only []
      set s0 : QState := { s with queue := rest }
      have hs1 : InvR m q
          { s0 with nodes := dictInsert s0.nodes f (serializeElement m i e) } := by
        refine ⟨h'.1, ?_, h'.2.2⟩
        intro kv hkv
        rcases mem_dictInsert hkv with hold | hnew
        · exact h'.2.1 kv hold
        · rw [hnew]; exact hf
      set s1 : QState :=
        { s0 with nodes := dictInsert s0.nodes f (serializeElement m i e) }
      have hs2 : InvR m q (if e.kind = .package ∨ e.kind = .module then
          structuralPush m d e.children s1 else s1) := by
        by_cases hkind : e.kind = .package ∨ e.kind = .module
        · rw [if_pos hkind]
          exact foldl_preserve (structStep m d) (InvR m q) e.children
            (fun st c hc hst => structStep_InvR hf h1 h2 hkind hc hst) s1 hs1
        · rw [if_neg hkind]; exact hs1
      set s2 : QState := if e.kind = .package ∨ e.kind = .module then
        structuralPush m d e.children s1 else s1
      by_cases hd : q.depth ≤ d
      · rw [if_pos hd]; exact hs2
      · rw [if_neg hd]
        exact foldl_preserve (relStep q f d) (InvR m q) _
          (fun st rel hr hst =>
            relStep_InvR hf h1 h2 (mem_getRels_both hr).1
              (mem_getRels_both hr).2 hst) s2 hs2

lemma initState_InvR {m : Metamodel} {q : Query} : InvR m q (initState q) := by
  refine ⟨?_, by simp [initState], by simp [initState]⟩
  intro p hp
  simp only [initState] at hp
  obtain ⟨f, hf, hpf⟩ := List.mem_map.mp hp
  rw [← hpf]
  exact ReachNF.root hf

lemma addMissingEndpoint_InvR {m : Metamodel} {q : Query} {x : String}
    (hx : ReachNF m q x) {st : QState} (h : InvR m q st) :
    InvR m q (addMissingEndpoint m st x) := by
  unfold addMissingEndpoint
  by_cases hany : st.nodes.any (fun kv => kv.1 = x) = true
  · rw [if_pos hany]; exact h
  · rw [if_neg hany]
    cases h1 : m.get_element_by_fqn x with
    | none => exact h
    | some i =>
      show InvR m q (match m.arena.elems[i]? with
        | none => st
        | some e =>
          { st with nodes := dictInsert st.nodes x (serializeElement m i e) })
      cases h2 : m.arena.elems[i]? with
      | none => exact h
      | some e =>
        refine ⟨h.1, ?_, h.2.2⟩
        intro kv hkv
        rcases mem_dictInsert hkv with hold | hnew
        · exact h.2.1 kv hold
        · rw [hnew]; exact hx

lemma postPass_InvR {m : Metamodel} {q : Query} {s : QState}
    (h : InvR m q s) : InvR m q (postPass m s) := by
  unfold postPass
  refine foldl_preserve _ (InvR m q) s.edges ?_ s h
  intro st t ht hst
  obtain ⟨rel, _, _, htup, hsrcR, htgtR⟩ := h.2.2 t ht
  have h1 : ReachNF m q t.1 := by rw [htup]; exact hsrcR
  have h2 : ReachNF m q t.2.1 := by rw [htup]; exact htgtR
  exact addMissingEndpoint_InvR h2 (addMissingEndpoint_InvR h1 hst)

lemma RelType.name_inj : ∀ {a b : RelType}, a.name = b.name → a = b := by
  intro a b h
  cases a <;> cases b <;> first
    | rfl
    | exact absurd h (by decide)

/-- Claim C7: for every loaded model and every query whose filter rules
exclude relationship kind K, the traversal output contains no edge of
kind K, and every node it contains is reachable from the roots along
structural edges and unfiltered relationships only — a filtered edge is
neither recorded nor traversed, so a node appears only if some
unfiltered path reaches it. -/
theorem c7_filter_correctness (m : Metamodel) (q : Query) (K : RelType)
    (hK : kindExcluded q K = true) :
    (∀ t ∈ (executeQueryCore m q).edges, t.2.2 ≠ K.name)
    ∧ (∀ kv ∈ (executeQueryCore m q).nodes, ReachNF m q kv.1) := by
  have hinv : InvR m q (executeQueryCore m q) := by
    unfold executeQueryCore
    exact postPass_InvR (runFuel_inv (InvR m q)
      (fun f d rest s hq h => processNode_InvR hq h) _ _ initState_InvR)
  refine ⟨?_, hinv.2.1⟩
  intro t ht hcontra
  obtain ⟨rel, hrel, hfil, htup, _, _⟩ := hinv.2.2 t ht
  rw [htup] at hcontra
  have hname : rel.rtype.name = K.name := hcontra
  have hKtype : rel.rtype = K := RelType.name_inj hname
  rw [isFiltered, hKtype, hK] at hfil
  exact Bool.noConfusion hfil

/-- Witness for C7 at the concrete fixture. -/
theorem c7_filter_correctness_witness :
    kindExcluded c7Query .DEPENDENCY = true
    ∧ ((∀ t ∈ (executeQueryCore c7Model c7Query).edges,
          t.2.2 ≠ RelType.DEPENDENCY.name)
      ∧ (∀ kv ∈ (executeQueryCore c7Model c7Query).nodes,
          ReachNF c7Model c7Query kv.1)) :=
  ⟨by decide, c7_filter_correctness c7Model c7Query .DEPENDENCY (by decide)⟩

end C7

/-!
Projection, monotonicity and extension lemmas for the traversal steps,
used by the amended depth-monotonicity claim (C6).
-/

section StepProjections

variable {m : Metamodel} {q : Query} {f : String} {d : Nat}

lemma foldl_proj_eq {α β : Type} (g : QState → α → QState) (proj : QState → β)
    (hg : ∀ st x, proj (g st x) = proj st) :
    ∀ (l : List α) (st : QState), proj (l.foldl g st) = proj st := by
  intro l
  induction l with
  | nil => intro st; rfl
  | cons x rest ih =>
    intro st
    rw [List.foldl_cons, ih, hg]

lemma structStep_nodes (st : QState) (c : String × Nat) :
    (structStep m d st c).nodes = st.nodes := by
  rw [structStep_eq]
  by_cases hv : m.arena.fqn c.2 ∈ st.visited
  · rw [if_pos hv]
  · rw [if_neg hv]

lemma structStep_edges (st : QState) (c : String × Nat) :
    (structStep m d st c).edges = st.edges := by
  rw [structStep_eq]
  by_cases hv : m.arena.fqn c.2 ∈ st.visited
  · rw [if_pos hv]
  · rw [if_neg hv]

lemma relStep_nodes (st : QState) (rel : Relationship) :
    (relStep q f d st rel).nodes = st.nodes := by
  cases hfil : isFiltered q rel with
  | true => rw [relStep_filtered _ _ _ hfil]
  | false =>
    rw [relStep_unfiltered _ _ _ hfil]
    by_cases hv : otherEnd f rel ∈ st.visited
    · rw [if_pos hv]
    · rw [if_neg hv]

lemma structuralPush_nodes (children : List (String × Nat)) (s : QState) :
    (structuralPush m d children s).nodes = s.nodes :=
  foldl_proj_eq (structStep m d) QState.nodes
    (fun st c => structStep_nodes st c) children s

lemma relationalPush_nodes (rels : List Relationship) (s : QState) :
    (relationalPush q f d rels s).nodes = s.nodes :=
  foldl_proj_eq (relStep q f d) QState.nodes
    (fun st rel => relStep_nodes st rel) rels s

lemma processNode_nodes_resolved {s : QState} {i : Nat} {e : ElemData}
    (h1 : m.get_element_by_fqn f = some i) (h2 : m.arena.elems[i]? = some e) :
    (processNode m q f d s).nodes
      = dictInsert s.nodes f (serializeElement m i e) := by
  rw [processNode_resolved h1 h2]
  simp only []
  set s1 : QState :=
    { s with nodes := dictInsert s.nodes f (serializeElement m i e) }
  have hn2 : (if e.kind = .package ∨ e.kind = .module then
      structuralPush m d e.children s1 else s1).nodes = s1.nodes := by
    by_cases hkind : e.kind = .package ∨ e.kind = .module
    · rw [if_pos hkind]
      exact structuralPush_nodes e.children s1
    · rw [if_neg hkind]
  set s2 : QState := if e.kind = .package ∨ e.kind = .module then
    structuralPush m d e.children s1 else s1
  by_cases hd : q.depth ≤ d
  · rw [if_pos hd, hn2]
  · rw [if_neg hd]
    rw [relationalPush_nodes _ s2, hn2]

lemma structStep_visited_mono (st : QState) (c : String × Nat) :
    st.visited ⊆ (structStep m d st c).visited := by
  rw [structStep_eq]
  by_cases hv : m.arena.fqn c.2 ∈ st.visited
  · rw [if_pos hv]
  · rw [if_neg hv]
    exact Finset.subset_insert _ _

lemma relStep_visited_mono (st : QState) (rel : Relationship) :
    st.visited ⊆ (relStep q f d st rel).visited := by
  cases hfil : isFiltered q rel with
  | true => rw [relStep_filtered _ _ _ hfil]
  | false =>
    rw [relStep_unfiltered _ _ _ hfil]
    by_cases hv : otherEnd f rel ∈ st.visited
    · rw [if_pos hv]
    · rw [if_neg hv]
      exact Finset.subset_insert _ _

lemma foldl_visited_mono {α : Type} (g : QState → α → QState)
    (hg : ∀ st x, st.visited ⊆ (g st x).visited) :
    ∀ (l : List α) (st : QState), st.visited ⊆ (l.foldl g st).visited := by
  intro l
  induction l with
  | nil => intro st; exact Finset.Subset.refl _
  | cons x rest ih =>
    intro st
    rw [List.foldl_cons]
    exact Finset.Subset.trans (hg st x) (ih _)

lemma structuralPush_visited_mono (children : List (String × Nat)) (s : QState) :
    s.visited ⊆ (structuralPush m d children s).visited :=
  foldl_visited_mono (structStep m d)
    (fun st c => structStep_visited_mono st c) children s

lemma relationalPush_visited_mono (rels : List Relationship) (s : QState) :
    s.visited ⊆ (relationalPush q f d rels s).visited :=
  foldl_visited_mono (relStep q f d)
    (fun st rel => relStep_visited_mono st rel) rels s

lemma processNode_visited_mono (s : QState) :
    s.visited ⊆ (processNode m q f d s).visited := by
  cases h1 : m.get_element_by_fqn f with
  | none => rw [processNode_unresolved h1]
  | some i =>
    cases h2 : m.arena.elems[i]? with
    | none => rw [processNode_dangling h1 h2]
    | some e =>
      rw [processNode_resolved h1 h2]
      simp only []
      set s1 : QState :=
        { s with nodes := dictInsert s.nodes f (serializeElement m i e) }
      have hm1 : s.visited ⊆ s1.visited := Finset.Subset.refl _
      have hm2 : s1.visited ⊆ (if e.kind = .package ∨ e.kind = .module then
          structuralPush m d e.children s1 else s1).visited := by
        by_cases hkind : e.kind = .package ∨ e.kind = .module
        · rw [if_pos hkind]
          exact structuralPush_visited_mono e.children s1
        · rw [if_neg hkind]
      set s2 : QState := if e.kind = .package ∨ e.kind = .module then
        structuralPush m d e.children s1 else s1
      by_cases hd : q.depth ≤ d
      · rw [if_pos hd]; exact Finset.Subset.trans hm1 hm2
      · rw [if_neg hd]
        exact Finset.Subset.trans hm1 (Finset.Subset.trans hm2
          (relationalPush_visited_mono _ s2))

lemma runFuel_visited_mono :
    ∀ (n : Nat) (s : QState), s.visited ⊆ (runFuel m q n s).visited := by
  intro n
  induction n with
  | zero => intro s; exact Finset.Subset.refl _
  | succ n ih =>
    intro s
    cases hq : s.queue with
    | nil => rw [runFuel_queue_empty hq]
    | cons fd rest =>
      obtain ⟨f, d⟩ := fd
      rw [runFuel_cons hq]
      exact Finset.Subset.trans
        (processNode_visited_mono (m := m) (q := q) (f := f) (d := d)
          { s with queue := rest })
        (ih _)

lemma structStep_queue_ext (st : QState) (c : String × Nat) :
    ∃ ext, (structStep m d st c).queue = st.queue ++ ext := by
  rw [structStep_eq]
  by_cases hv : m.arena.fqn c.2 ∈ st.visited
  · rw [if_pos hv]; exact ⟨[], by simp⟩
  · rw [if_neg hv]; exact ⟨[(m.arena.fqn c.2, d)], rfl⟩

lemma relStep_queue_ext (st : QState) (rel : Relationship) :
    ∃ ext, (relStep q f d st rel).queue = st.queue ++ ext := by
  cases hfil : isFiltered q rel with
  | true => rw [relStep_filtered _ _ _ hfil]; exact ⟨[], by simp⟩
  | false =>
    rw [relStep_unfiltered _ _ _ hfil]
    by_cases hv : otherEnd f rel ∈ st.visited
    · rw [if_pos hv]; exact ⟨[], by simp⟩
    · rw [if_neg hv]; exact ⟨[(otherEnd f rel, d + 1)], rfl⟩

lemma foldl_queue_ext {α : Type} (g : QState → α → QState)
    (hg : ∀ st x, ∃ ext, (g st x).queue = st.queue ++ ext) :
    ∀ (l : List α) (st : QState), ∃ ext, (l.foldl g st).queue = st.queue ++ ext := by
  intro l
  induction l with
  | nil => intro st; exact ⟨[], by simp⟩
  | cons x rest ih =>
    intro st
    obtain ⟨e1, he1⟩ := hg st x
    obtain ⟨e2, he2⟩ := ih (g st x)
    rw [List.foldl_cons]
    exact ⟨e1 ++ e2, by rw [he2, he1, List.append_assoc]⟩

lemma structuralPush_queue_ext (children : List (String × Nat)) (s : QState) :
    ∃ ext, (structuralPush m d children s).queue = s.queue ++ ext :=
  foldl_queue_ext (structStep m d)
    (fun st c => structStep_queue_ext st c) children s

lemma relationalPush_queue_ext (rels : List Relationship) (s : QState) :
    ∃ ext, (relationalPush q f d rels s).queue = s.queue ++ ext :=
  foldl_queue_ext (relStep q f d)
    (fun st rel => relStep_queue_ext st rel) rels s

lemma processNode_queue_ext (s : QState) :
    ∃ ext, (processNode m q f d s).queue = s.queue ++ ext := by
  cases h1 : m.get_element_by_fqn f with
  | none => rw [processNode_unresolved h1]; exact ⟨[], by simp⟩
  | some i =>
    cases h2 : m.arena.elems[i]? with
    | none => rw [processNode_dangling h1 h2]; exact ⟨[], by simp⟩
    | some e =>
      rw [processNode_resolved h1 h2]
      simp only []
      set s1 : QState :=
        { s with nodes := dictInsert s.nodes f (serializeElement m i e) }
      have h2' : ∃ ext, (if e.kind = .package ∨ e.kind = .module then
          structuralPush m d e.children s1 else s1).queue = s1.queue ++ ext := by
        by_cases hkind : e.kind = .package ∨ e.kind = .module
        · rw [if_pos hkind]
          exact structuralPush_queue_ext e.children s1
        · rw [if_neg hkind]; exact ⟨[], by simp⟩
      obtain ⟨e1, he1⟩ := h2'
      set s2 : QState := if e.kind = .package ∨ e.kind = .module then
        structuralPush m d e.children s1 else s1
      by_cases hd : q.depth ≤ d
      · rw [if_pos hd]; exact ⟨e1, he1⟩
      · rw [if_neg hd]
        obtain ⟨e2, he2⟩ := relationalPush_queue_ext
          (m.get_relationships_for_fqn f .both) s2
        exact ⟨e1 ++ e2, by rw [he2, he1, List.append_assoc]⟩

lemma structStep_visits_self (st : QState) (c : String × Nat) :
    m.arena.fqn c.2 ∈ (structStep m d st c).visited := by
  rw [structStep_eq]
  by_cases hv : m.arena.fqn c.2 ∈ st.visited
  · rw [if_pos hv]; exact hv
  · rw [if_neg hv]; exact Finset.mem_insert_self _ _

lemma structuralPush_visits :
    ∀ (children : List (String × Nat)) (st : QState) (c : String × Nat),
      c ∈ children →
      m.arena.fqn c.2 ∈ (structuralPush m d children st).visited := by
  intro children
  induction children with
  | nil => intro st c hc; cases hc
  | cons c0 rest ih =>
    intro st c hc
    have hstep : structuralPush m d (c0 :: rest) st
        = structuralPush m d rest (structStep m d st c0) := rfl
    rcases List.mem_cons.mp hc with hceq | hc'
    · rw [hstep, hceq]
      exact foldl_visited_mono _ (fun st' c' => structStep_visited_mono st' c')
        rest _ (structStep_visits_self st c0)
    · rw [hstep]
      exact ih _ c hc'

end StepProjections

/-!
Claim C6 amended: depth-0 results are contained in the results at any
larger depth bound.  The depth-0 node set is the structural closure of
the roots (`SReach`), and every structurally reachable, resolvable FQN
is visited and serialized by a run at any depth bound.
-/

section C6Amended

lemma structStep_Inv0 {m : Metamodel} {roots : List String} {d : Nat}
    {f : String} {i : Nat} {e : ElemData}
    (hf : SReach m roots f) (h1 : m.get_element_by_fqn f = some i)
    (h2 : m.arena.elems[i]? = some e)
    (hkind : e.kind = .package ∨ e.kind = .module)
    {c : String × Nat} (hc : c ∈ e.children)
    {st : QState} (h : Inv0 m roots st) : Inv0 m roots (structStep m d st c) := by
  rw [structStep_eq]
  by_cases hv : m.arena.fqn c.2 ∈ st.visited
  · rw [if_pos hv]; exact h
  · rw [if_neg hv]
    refine ⟨?_, h.2.1, h.2.2⟩
    intro p hp
    rcases List.mem_append.mp hp with h1' | h1'
    · exact h.1 p h1'
    · have : p = (m.arena.fqn c.2, d) := by simpa using h1'
      rw [this]
      exact SReach.child hf h1 h2 hkind hc

lemma processNode_Inv0 {m : Metamodel} {q : Query} {f : String} {d : Nat}
    {rest : List (String × Nat)} {s : QState} (hdep : q.depth = 0)
    (hq : s.queue = (f, d) :: rest) (h : Inv0 m q.root_fqns s) :
    Inv0 m q.root_fqns (processNode m q f d { s with queue := rest }) := by
  have hf : SReach m q.root_fqns f :=
    h.1 (f, d) (by rw [hq]; exact List.mem_cons_self _ _)
  have h' : Inv0 m q.root_fqns { s with queue := rest } :=
    ⟨fun p hp => h.1 p (by rw [hq]; exact List.mem_cons_of_mem _ hp),
     h.2.1, h.2.2⟩
  cases h1 : m.get_element_by_fqn f with
  | none => rw [processNode_unresolved h1]; exact h'
  | some i =>
    cases h2 : m.arena.elems[i]? with
    | none => rw [processNode_dangling h1 h2]; exact h'
    | some e =>
      rw [processNode_resolved h1 h2]
      simp only []
      rw [if_pos (by omega : q.depth ≤ d)]
      set s0 : QState := { s with queue := rest }
      have hs1 : Inv0 m q.root_fqns
          { s0 with nodes := dictInsert s0.nodes f (serializeElement m i e) } := by
        refine ⟨h'.1, ?_, h'.2.2⟩
        intro kv hkv
        rcases mem_dictInsert hkv with hold | hnew
        · exact h'.2.1 kv hold
        · rw [hnew]
          exact ⟨hf, i, e, h1, h2, rfl⟩
      set s1 : QState :=
        { s0 with nodes := dictInsert s0.nodes f (serializeElement m i e) }
      by_cases hkind : e.kind = .package ∨ e.kind = .module
      · rw [if_pos hkind]
        exact foldl_preserve (structStep m d) (Inv0 m q.root_fqns) e.children
          (fun st c hc hst => structStep_Inv0 hf h1 h2 hkind hc hst) s1 hs1
      · rw [if_neg hkind]; exact hs1

lemma postPass_of_edges_nil {m : Metamodel} {s : QState} (he : s.edges = []) :
    postPass m s = s := by
  unfold postPass
  rw [he]
  rfl

lemma initState_Inv0 {m : Metamodel} {q : Query} :
    Inv0 m q.root_fqns (initState q) := by
  refine ⟨?_, by simp [initState], by simp [initState]⟩
  intro p hp
  simp only [initState] at hp
  obtain ⟨f, hf, hpf⟩ := List.mem_map.mp hp
  rw [← hpf]
  exact SReach.root hf

/-- Characterization of a depth-0 run: no edges, and every output node
is a canonically serialized member of the structural closure. -/
lemma c6_depth0_characterization (m : Metamodel) (q : Query)
    (hdep : q.depth = 0) :
    (executeQueryCore m q).edges = []
    ∧ ∀ kv ∈ (executeQueryCore m q).nodes,
        SReach m q.root_fqns kv.1
        ∧ ∃ i e, m.get_element_by_fqn kv.1 = some i
            ∧ m.arena.elems[i]? = some e ∧ kv.2 = serializeElement m i e := by
  have hinv : Inv0 m q.root_fqns
      (runFuel m q (qMeasure m (initState q)) (initState q)) :=
    runFuel_inv (Inv0 m q.root_fqns)
      (fun f d rest s hq h => processNode_Inv0 hdep hq h) _ _ initState_Inv0
  unfold executeQueryCore
  rw [postPass_of_edges_nil hinv.2.2]
  exact ⟨hinv.2.2, hinv.2.1⟩

lemma Inv6F_resolve {m : Metamodel} {f : String} {s : QState}
    (hF : Inv6F m f s) (hPf : Processed m s f) : Inv6 m s :=
  ⟨hF.1, fun x hx => (hF.2 x hx).elim Or.inl
    (fun h' => h'.elim (fun hxf => Or.inr (hxf ▸ hPf)) Or.inr)⟩

lemma Processed_mono {m : Metamodel} {s t : QState} {x : String}
    (h : Processed m s x)
    (hn : ∀ i e, m.get_element_by_fqn x = some i →
      m.arena.elems[i]? = some e →
      (x, serializeElement m i e) ∈ s.nodes →
      (x, serializeElement m i e) ∈ t.nodes)
    (hv : s.visited ⊆ t.visited) : Processed m t x := by
  intro i e h1 h2
  exact ⟨hn i e h1 h2 (h i e h1 h2).1,
    fun hk c hc => hv ((h i e h1 h2).2 hk c hc)⟩

lemma canon_mem_dictInsert {m : Metamodel} {x : String} {ix : Nat}
    {ex : ElemData} {f : String} {i : Nat} {e : ElemData}
    {l : List (String × NodeRecord)}
    (hlx : m.get_element_by_fqn x = some ix)
    (hax : m.arena.elems[ix]? = some ex)
    (h1 : m.get_element_by_fqn f = some i)
    (h2 : m.arena.elems[i]? = some e)
    (hmem : (x, serializeElement m ix ex) ∈ l) :
    (x, serializeElement m ix ex) ∈ dictInsert l f (serializeElement m i e) := by
  refine dictInsert_mem_of_mem hmem ?_
  intro hxf
  have hxf' : x = f := hxf
  subst hxf'
  rw [h1] at hlx
  injection hlx with hi
  subst hi
  rw [h2] at hax
  injection hax with he
  subst he
  rfl

lemma structStep_Inv6F {m : Metamodel} {f : String} {d : Nat}
    (st : QState) (c : String × Nat) (h : Inv6F m f st) :
    Inv6F m f (structStep m d st c) := by
  rw [structStep_eq]
  by_cases hv : m.arena.fqn c.2 ∈ st.visited
  · rw [if_pos hv]; exact h
  · rw [if_neg hv]
    constructor
    · intro p hp
      rcases List.mem_append.mp hp with h1' | h1'
      · exact Finset.mem_insert_of_mem (h.1 p h1')
      · have : p = (m.arena.fqn c.2, d) := by simpa using h1'
        rw [this]
        exact Finset.mem_insert_self _ _
    · intro x hx
      rcases Finset.mem_insert.mp hx with hxc | hxv
      · refine Or.inl ⟨d, ?_⟩
        rw [hxc]
        exact List.mem_append_right _ (List.mem_singleton.mpr rfl)
      · rcases h.2 x hxv with ⟨dx, hdx⟩ | hesc
        · exact Or.inl ⟨dx, List.mem_append_left _ hdx⟩
        · rcases hesc with hxf | hproc
          · exact Or.inr (Or.inl hxf)
          · exact Or.inr (Or.inr (Processed_mono hproc
              (fun i e _ _ hm => hm) (Finset.subset_insert _ _)))

lemma relStep_Inv6F {m : Metamodel} {q : Query} {f g : String} {d : Nat}
    (st : QState) (rel : Relationship) (h : Inv6F m g st) :
    Inv6F m g (relStep q f d st rel) := by
  cases hfil : isFiltered q rel with
  | true => rw [relStep_filtered _ _ _ hfil]; exact h
  | false =>
    rw [relStep_unfiltered _ _ _ hfil]
    by_cases hv : otherEnd f rel ∈ st.visited
    · rw [if_pos hv]; exact h
    · rw [if_neg hv]
      constructor
      · intro p hp
        rcases List.mem_append.mp hp with h1' | h1'
        · exact Finset.mem_insert_of_mem (h.1 p h1')
        · have : p = (otherEnd f rel, d + 1) := by simpa using h1'
          rw [this]
          exact Finset.mem_insert_self _ _
      · intro x hx
        rcases Finset.mem_insert.mp hx with hxc | hxv
        · refine Or.inl ⟨d + 1, ?_⟩
          rw [hxc]
          exact List.mem_append_right _ (List.mem_singleton.mpr rfl)
        · rcases h.2 x hxv with ⟨dx, hdx⟩ | hesc
          · exact Or.inl ⟨dx, List.mem_append_left _ hdx⟩
          · rcases hesc with hxf | hproc
            · exact Or.inr (Or.inl hxf)
            · exact Or.inr (Or.inr (Processed_mono hproc
                (fun i e _ _ hm => hm) (Finset.subset_insert _ _)))

lemma processNode_Inv6 {m : Metamodel} {q : Query} {f : String} {d : Nat}
    {rest : List (String × Nat)} {s : QState} (hq : s.queue = (f, d) :: rest)
    (h : Inv6 m s) : Inv6 m (processNode m q f d { s with queue := rest }) := by
  have hF : Inv6F m f { s with queue := rest } := by
    constructor
    · intro p hp
      exact h.1 p (by rw [hq]; exact List.mem_cons_of_mem _ hp)
    · intro x hx
      rcases h.2 x hx with ⟨dx, hdx⟩ | hproc
      · rw [hq] at hdx
        rcases List.mem_cons.mp hdx with heq | hmem
        · right; left
          have : x = (f, d).1 := congrArg Prod.fst heq
          exact this
        · exact Or.inl ⟨dx, hmem⟩
      · exact Or.inr (Or.inr hproc)
  cases h1 : m.get_element_by_fqn f with
  | none =>
    rw [processNode_unresolved h1]
    refine Inv6F_resolve hF ?_
    intro i e hl _
    rw [h1] at hl
    exact Option.noConfusion hl
  | some i =>
    cases h2 : m.arena.elems[i]? with
    | none =>
      rw [processNode_dangling h1 h2]
      refine Inv6F_resolve hF ?_
      intro i' e hl ha
      rw [h1] at hl
      injection hl with hl
      rw [← hl] at ha
      rw [h2] at ha
      exact Option.noConfusion ha
    | some e =>
      rw [processNode_resolved h1 h2]
      simp only []
      set s0 : QState := { s with queue := rest }
      have hF1 : Inv6F m f
          { s0 with nodes := dictInsert s0.nodes f (serializeElement m i e) } := by
        refine ⟨hF.1, ?_⟩
        intro x hx
        rcases hF.2 x hx with hq' | hesc
        · exact Or.inl hq'
        · rcases hesc with hxf | hproc
          · exact Or.inr (Or.inl hxf)
          · refine Or.inr (Or.inr (Processed_mono hproc ?_ (Finset.Subset.refl _)))
            intro ix ex hlx hax hm
            exact canon_mem_dictInsert hlx hax h1 h2 hm
      set s1 : QState :=
        { s0 with nodes := dictInsert s0.nodes f (serializeElement m i e) }
      have hnodes_s1 : (f, serializeElement m i e) ∈ s1.nodes :=
        mem_dictInsert_self _ _ _
      by_cases hkind : e.kind = .package ∨ e.kind = .module
      · rw [if_pos hkind]
        have hF2 : Inv6F m f (structuralPush m d e.children s1) :=
          foldl_preserve (structStep m d) (Inv6F m f) e.children
            (fun st c _ hst => structStep_Inv6F st c hst) s1 hF1
        have hPf2 : Processed m (structuralPush m d e.children s1) f := by
          intro i' e' hl ha
          rw [h1] at hl; injection hl with hl; subst hl
          rw [h2] at ha; injection ha with ha; subst ha
          refine ⟨by rw [structuralPush_nodes]; exact hnodes_s1, ?_⟩
          intro _ c hc
          exact structuralPush_visits e.children s1 c hc
        by_cases hd : q.depth ≤ d
        · rw [if_pos hd]
          exact Inv6F_resolve hF2 hPf2
        · rw [if_neg hd]
          have hF3 : Inv6F m f (relationalPush q f d
              (m.get_relationships_for_fqn f .both)
              (structuralPush m d e.children s1)) :=
            foldl_preserve (relStep q f d) (Inv6F m f) _
              (fun st rel _ hst => relStep_Inv6F st rel hst) _ hF2
          refine Inv6F_resolve hF3 ?_
          refine Processed_mono hPf2 ?_ (relationalPush_visited_mono _ _)
          intro i' e' _ _ hm
          rw [relationalPush_nodes]
          exact hm
      · rw [if_neg hkind]
        have hPf1 : Processed m s1 f := by
          intro i' e' hl ha
          rw [h1] at hl; injection hl with hl; subst hl
          rw [h2] at ha; injection ha with ha; subst ha
          exact ⟨hnodes_s1, fun hk => absurd hk hkind⟩
        by_cases hd : q.depth ≤ d
        · rw [if_pos hd]
          exact Inv6F_resolve hF1 hPf1
        · rw [if_neg hd]
          have hF3 : Inv6F m f (relationalPush q f d
              (m.get_relationships_for_fqn f .both) s1) :=
            foldl_preserve (relStep q f d) (Inv6F m f) _
              (fun st rel _ hst => relStep_Inv6F st rel hst) _ hF1
          refine Inv6F_resolve hF3 ?_
          refine Processed_mono hPf1 ?_ (relationalPush_visited_mono _ _)
          intro i' e' _ _ hm
          rw [relationalPush_nodes]
          exact hm

lemma initState_Inv6 {m : Metamodel} {q : Query} : Inv6 m (initState q) := by
  constructor
  · intro p hp
    simp only [initState] at hp
    obtain ⟨f, hf, hpf⟩ := List.mem_map.mp hp
    rw [← hpf]
    simp only [initState]
    exact List.mem_toFinset.mpr hf
  · intro x hx
    simp only [initState] at hx
    exact Or.inl ⟨0, by
      simp only [initState]
      exact List.mem_map.mpr ⟨x, List.mem_toFinset.mp hx, rfl⟩⟩

lemma final_state_processed (m : Metamodel) (q : Query) :
    ∀ x ∈ (runFuel m q (qMeasure m (initState q)) (initState q)).visited,
      Processed m (runFuel m q (qMeasure m (initState q)) (initState q)) x := by
  have hinv : Inv6 m (runFuel m q (qMeasure m (initState q)) (initState q)) :=
    runFuel_inv (Inv6 m) (fun f d rest s hq h => processNode_Inv6 hq h) _ _
      initState_Inv6
  intro x hx
  rcases hinv.2 x hx with ⟨dx, hdx⟩ | hproc
  · rw [runFuel_sufficient _ _ (Nat.le_refl _)] at hdx
    exact absurd hdx (List.not_mem_nil _)
  · exact hproc

lemma sreach_visited (m : Metamodel) (q : Query) {x : String}
    (hx : SReach m q.root_fqns x) :
    x ∈ (runFuel m q (qMeasure m (initState q)) (initState q)).visited := by
  induction hx with
  | root hf =>
    refine runFuel_visited_mono _ _ ?_
    simp only [initState]
    exact List.mem_toFinset.mpr hf
  | child hx' h1 h2 hkind hc ih =>
    exact (final_state_processed m q _ ih _ _ h1 h2).2 hkind _ hc

lemma addMissingEndpoint_nodes_mono {m : Metamodel} {st : QState} {x : String}
    {kv : String × NodeRecord} (h : kv ∈ st.nodes) :
    kv ∈ (addMissingEndpoint m st x).nodes := by
  unfold addMissingEndpoint
  by_cases hany : st.nodes.any (fun kv' => kv'.1 = x) = true
  · rw [if_pos hany]; exact h
  · rw [if_neg hany]
    cases h1 : m.get_element_by_fqn x with
    | none => exact h
    | some i =>
      show kv ∈ (match m.arena.elems[i]? with
        | none => st
        | some e =>
          { st with nodes := dictInsert st.nodes x (serializeElement m i e) }).nodes
      cases h2 : m.arena.elems[i]? with
      | none => exact h
      | some e =>
        refine dictInsert_mem_of_mem h ?_
        intro hk
        exact absurd (List.any_eq_true.mpr ⟨kv, h, decide_eq_true hk⟩) hany

lemma postPass_nodes_mono {m : Metamodel} {s : QState} {kv : String × NodeRecord}
    (h : kv ∈ s.nodes) : kv ∈ (postPass m s).nodes :=
  foldl_preserve _ (fun st => kv ∈ st.nodes) s.edges
    (fun _ _ _ hm => addMissingEndpoint_nodes_mono
      (addMissingEndpoint_nodes_mono hm)) s h

lemma sreach_in_core_nodes (m : Metamodel) (q : Query) {x : String} {i : Nat}
    {e : ElemData} (hx : SReach m q.root_fqns x)
    (h1 : m.get_element_by_fqn x = some i) (h2 : m.arena.elems[i]? = some e) :
    (x, serializeElement m i e) ∈ (executeQueryCore m q).nodes := by
  unfold executeQueryCore
  exact postPass_nodes_mono
    ((final_state_processed m q x (sreach_visited m q hx) i e h1 h2).1)

/-- Claim C6 amended: for a fixed root set and fixed filter rules, the
node set and (empty) edge set produced at depth 0 are subsets of those
produced at any depth bound d — in particular at depth 1.  For general
d the claimed monotonicity between depth d and depth d+1 fails, see the
counterexample. -/
theorem c6_depth_monotonicity_amended (m : Metamodel) (roots : List String)
    (fr : List FilterRule) (d : Nat) :
    (executeQueryCore m ⟨roots, 0, fr⟩).edges = []
    ∧ ∀ kv ∈ (executeQueryCore m ⟨roots, 0, fr⟩).nodes,
        kv ∈ (executeQueryCore m ⟨roots, d, fr⟩).nodes := by
  have hchar := c6_depth0_characterization m ⟨roots, 0, fr⟩ rfl
  refine ⟨hchar.1, ?_⟩
  intro kv hkv
  obtain ⟨hs, i, e, hl, ha, hv⟩ := hchar.2 kv hkv
  have hmem : (kv.1, serializeElement m i e)
      ∈ (executeQueryCore m ⟨roots, d, fr⟩).nodes :=
    sreach_in_core_nodes m ⟨roots, d, fr⟩ hs hl ha
  have hkv2 : kv = (kv.1, serializeElement m i e) := Prod.ext rfl hv
  rw [hkv2]
  exact hmem

/-- Witness for the amended C6 on the concrete two-element model. -/
theorem c6_depth_monotonicity_amended_witness :
    (executeQueryCore c3Model ⟨["p"], 0, []⟩).edges = []
    ∧ ("p", serializeElement c3Model 0 (pkgElem "p" none [("m", 1)]))
        ∈ (executeQueryCore c3Model ⟨["p"], 1, []⟩).nodes :=
  ⟨(c6_depth_monotonicity_amended c3Model ["p"] [] 1).1,
   (c6_depth_monotonicity_amended c3Model ["p"] [] 1).2
     ("p", serializeElement c3Model 0 (pkgElem "p" none [("m", 1)]))
     (by decide)⟩

end C6Amended

/-- Claim C2 (code bug evidence): the facade's return statement passes
the keyword `root_fqns` to the ViewState constructor, but the ViewState
dataclass declares only the fields `nodes` and `edges`, so the call
raises TypeError on every query instead of returning a ViewState
carrying the query's roots. -/
theorem c2_viewstate_return_rejected :
    dataclassAccepts ViewState.fieldNames executeQueryReturnKeywords = false
    ∧ "root_fqns" ∈ executeQueryReturnKeywords
    ∧ "root_fqns" ∉ ViewState.fieldNames := by
  refine ⟨rfl, by decide, by decide⟩

/-!
Claim C4: the name-resolution priority order.
-/

/-- Counterexample to claim C4 as stated: the dotless token `foo` has
no alias-table entry and `proj.foo` is registered, yet resolution
fails — the literal project-root concatenation (and the dotted-prefix
alias step) is attempted only for tokens containing a dot, so a dotless
token falls through to the current-module fallback and misses. -/
theorem c4_root_concat_counterexample :
    containsDot "foo" = false
    ∧ lookupDict c4State.imports "foo" = none
    ∧ (c4Model.get_element_by_fqn ("proj" ++ "." ++ "foo")).isSome = true
    ∧ resolveNameToFqn c4State "foo" = none := by decide

/-- Claim C4 amended: the literal project-root concatenation step works
as described only for dotted tokens.  For every token that contains a
dot, has no exact alias-table entry, and whose first dot-segment has no
alias-table entry, if project_root ++ "." ++ token is present in the
registry then resolution succeeds with exactly that FQN. -/
theorem c4_resolution_amended (st : P2State) (name : String)
    (hdot : containsDot name = true)
    (h1 : lookupDict st.imports name = none)
    (h2 : lookupDict st.imports ((splitDots name).headD "") = none)
    (h3 : (st.model.get_element_by_fqn (st.projectName ++ "." ++ name)).isSome
            = true) :
    resolveNameToFqn st name = some (st.projectName ++ "." ++ name) := by
  unfold resolveNameToFqn
  rw [h1]
  simp only [hdot, if_true]
  cases hs : splitDots name with
  | nil =>
    simp only [hs] at h2 ⊢
    simp only [h3, if_true]
  | cons base rest =>
    rw [hs] at h2
    simp only [hs, List.headD] at h2 ⊢
    rw [h2]
    simp only [h3, if_true]

/-- Witness for the amended C4: inside module `proj.m` of `c4ModelW`
with no imports, the dotted token `m.C` resolves to the registered
`proj.m.C` through the literal project-root concatenation. -/
theorem c4_resolution_amended_witness :
    containsDot "m.C" = true
    ∧ resolveNameToFqn c4StateW "m.C" = some ("proj" ++ "." ++ "m.C") :=
  ⟨by decide, c4_resolution_amended c4StateW "m.C" (by decide) (by decide)
    (by decide) (by decide)⟩

/-!
Claim C1: the constructor-parameter composition heuristic.
-/

/-- Claim C1 (code bug evidence): on a project with a registered
classifier `EventBus` and a classifier `Owner` whose `__init__` has the
untyped parameter `event_bus`, the casing transform does produce the
candidate `EventBus` and the hierarchy pass registers both classifiers,
but the relationship pass raises AttributeError instead of emitting a
COMPOSITION edge and completing: the registry scan reads
`self._model.registry`, an attribute the Metamodel class does not
define (its registry is the private `_fqn_registry`). -/
theorem c1_composition_heuristic_crashes :
    snakeToPascal "event_bus" = "EventBus"
    ∧ runHierarchyPass projModel 1 c1Tree = .ok ⟨c1AfterP1, 1⟩
    ∧ c1AfterP1.get_element_by_fqn "proj.m.EventBus" = some 2
    ∧ runRelationshipPass c1AfterP1 1 c1Tree =
        .error "AttributeError: Metamodel object has no attribute registry" :=
  ⟨by decide, rfl, by decide, rfl⟩

/-!
Claim C5: placement of nested class definitions.
-/

/-- Counterexample to claim C5 as stated: the hierarchy pass on a
module containing `class Outer:` with a nested `class Inner:` attaches
`Inner` to the module (parent slot 1), not to the enclosing classifier
`Outer` (whose children stay empty), and registers it under
`proj.m.Inner` instead of the tree position `proj.m.Outer.Inner`. -/
theorem c5_nested_class_counterexample :
    runHierarchyPass projModel 1 c5Tree = .ok ⟨c5AfterP1, 1⟩
    ∧ c5AfterP1.get_element_by_fqn "proj.m.Outer.Inner" = none
    ∧ c5AfterP1.get_element_by_fqn "proj.m.Inner" = some 3
    ∧ (c5AfterP1.arena.elems[3]?).map (fun e => (e.name, e.parent))
        = some ("Inner", some 1)
    ∧ (c5AfterP1.arena.elems[2]?).map (fun e => e.children) = some [] :=
  ⟨rfl, by decide, by decide, by decide, by decide⟩

/-- Claim C5 amended: for every type definition encountered by
Pass 1 — top-level or nested, even inside a function — the created
element is a classifier whose parent is the current module (never the
enclosing classifier), registered under the current module's FQN, a
dot, and its own local name: on any parent-decreasing model whose
module slot is valid, every arena slot created by a hierarchy-pass run
over a file is of that shape. -/
theorem c5_flat_placement (model : Metamodel) (mIdx : Nat) (tree : List Stmt)
    (st' : P1State) (hpd : model.arena.ParentDecr)
    (hm : mIdx < model.arena.elems.length)
    (h : runHierarchyPass model mIdx tree = .ok st') :
    ∀ (j : Nat) (e' : ElemData), model.arena.elems.length ≤ j →
      st'.model.arena.elems[j]? = some e' →
      e'.kind = .classifier ∧ e'.parent = some mIdx ∧
      (model.arena.fqn mIdx ++ "." ++ e'.name, j) ∈ st'.model.registry := by
  unfold runHierarchyPass at h
  obtain ⟨ext, _⟩ := pass1VisitList_ext ⟨model, mIdx⟩ st' tree hpd h
  intro j e' hj hget
  obtain ⟨hk, hp⟩ := ext.fresh j e' hj hget
  have hmem := ext.regnew j e' hj hget
  have hfq : st'.model.arena.fqn mIdx = model.arena.fqn mIdx :=
    Arena.fqn_ext hpd ext.pres hm ext.len
  rw [hfq] at hmem
  exact ⟨hk, hp, hmem⟩

/-- Witness for the amended C5 on the Outer/Inner module: the slot the
pass created for the nested `Inner` is a classifier child of module
`proj.m`, registered as `proj.m` ++ "." ++ "Inner". -/
theorem c5_flat_placement_witness :
    (clsElem "Inner" 1).kind = .classifier
    ∧ (clsElem "Inner" 1).parent = some 1
    ∧ (projModel.arena.fqn 1 ++ "." ++ (clsElem "Inner" 1).name, 3)
        ∈ (⟨c5AfterP1, 1⟩ : P1State).model.registry :=
  c5_flat_placement projModel 1 c5Tree ⟨c5AfterP1, 1⟩
    (parentDecr_of_b (by decide)) (by decide) rfl 3 (clsElem "Inner" 1)
    (by decide) (by decide)

end CodeCartographer
